import Mathlib

/-!
Verification of the JSON formatter/converter core.

Shallow embedding of `src/app/utils/jsonFormatter.ts` (the `formatJson`,
`minifyJson`, `validateJson`, `parseJson` functions) and
`src/app/utils/converters.ts` (`jsonToXml`, `jsonToCsv`, `jsonToYaml` and
their helpers `escapeXml`, `escapeCsv`, `formatYamlValue`).

Modelling conventions:
* Strings are `List Char` (`Str`), so that parsing and printing proofs can
  proceed by structural induction on characters.
* JSON numbers are modelled as arbitrary-precision integers (`Int`): the
  fraction/exponent forms of the JSON number grammar are outside the model.
  Integer literals round-trip through the JavaScript float formatting
  verbatim, which is the regime all claims exercise.
* `JSON.parse` is modelled by a fuel-driven recursive-descent routine
  (`parseVal`); `JSON.stringify` by `minSerV` (no gap) and `prettyV`
  (a gap of spaces, newline-separated entries), following ECMA-262's
  QuoteJSONString / SerializeJSONObject / SerializeJSONArray.  As in the
  engine, parsing an object stores a repeated name once, at its first
  position with the last value (`insertKV`).
-/

abbrev Str := List Char

inductive JsonValue where
  | null
  | bool (b : Bool)
  | num (n : Int)
  | str (s : Str)
  | arr (xs : List JsonValue)
  | obj (kvs : List (Str × JsonValue))

instance : Inhabited JsonValue := ⟨.null⟩

/-! Structural equality (no deriving handler exists for the nested inductive). -/

mutual
def jvBeq : JsonValue → JsonValue → Bool
  | .null, .null => true
  | .bool a, .bool b => a == b
  | .num a, .num b => a == b
  | .str a, .str b => a == b
  | .arr a, .arr b => jvBeqList a b
  | .obj a, .obj b => jvBeqFields a b
  | _, _ => false
def jvBeqList : List JsonValue → List JsonValue → Bool
  | [], [] => true
  | x :: xs, y :: ys => jvBeq x y && jvBeqList xs ys
  | _, _ => false
def jvBeqFields : List (Str × JsonValue) → List (Str × JsonValue) → Bool
  | [], [] => true
  | (k, v) :: xs, (l, w) :: ys => k == l && jvBeq v w && jvBeqFields xs ys
  | _, _ => false
end

mutual
theorem jvBeq_iff : ∀ a b : JsonValue, jvBeq a b = true ↔ a = b
  | .null, .null => by simp [jvBeq]
  | .bool _, .bool _ => by simp [jvBeq]
  | .num _, .num _ => by simp [jvBeq]
  | .str _, .str _ => by simp [jvBeq]
  | .arr a, .arr b => by simp [jvBeq, jvBeqList_iff a b]
  | .obj a, .obj b => by simp [jvBeq, jvBeqFields_iff a b]
  | .null, .bool _ | .null, .num _ | .null, .str _ | .null, .arr _ | .null, .obj _
  | .bool _, .null | .bool _, .num _ | .bool _, .str _ | .bool _, .arr _ | .bool _, .obj _
  | .num _, .null | .num _, .bool _ | .num _, .str _ | .num _, .arr _ | .num _, .obj _
  | .str _, .null | .str _, .bool _ | .str _, .num _ | .str _, .arr _ | .str _, .obj _
  | .arr _, .null | .arr _, .bool _ | .arr _, .num _ | .arr _, .str _ | .arr _, .obj _
  | .obj _, .null | .obj _, .bool _ | .obj _, .num _ | .obj _, .str _ | .obj _, .arr _ => by
      simp [jvBeq]
theorem jvBeqList_iff : ∀ a b : List JsonValue, jvBeqList a b = true ↔ a = b
  | [], [] => by simp [jvBeqList]
  | [], _ :: _ => by simp [jvBeqList]
  | _ :: _, [] => by simp [jvBeqList]
  | x :: xs, y :: ys => by simp [jvBeqList, jvBeq_iff x y, jvBeqList_iff xs ys]
theorem jvBeqFields_iff : ∀ a b : List (Str × JsonValue), jvBeqFields a b = true ↔ a = b
  | [], [] => by simp [jvBeqFields]
  | [], _ :: _ => by simp [jvBeqFields]
  | _ :: _, [] => by simp [jvBeqFields]
  | (k, v) :: xs, (l, w) :: ys => by
      simp [jvBeqFields, jvBeq_iff v w, jvBeqFields_iff xs ys, and_assoc]
end

instance : DecidableEq JsonValue := fun a b =>
  decidable_of_iff (jvBeq a b = true) (jvBeq_iff a b)

/-! Well-formedness: every object node binds each name at most once.  This is
an invariant of everything `JSON.parse` returns, since a repeated name in the
source text overwrites the earlier binding. -/

def keyNotIn (k : Str) (kvs : List (Str × JsonValue)) : Bool :=
  !(kvs.any (fun kv => kv.1 == k))

mutual
def wfV : JsonValue → Bool
  | .null => true
  | .bool _ => true
  | .num _ => true
  | .str _ => true
  | .arr xs => wfArr xs
  | .obj kvs => wfObj kvs
def wfArr : List JsonValue → Bool
  | [] => true
  | x :: xs => wfV x && wfArr xs
def wfObj : List (Str × JsonValue) → Bool
  | [] => true
  | (k, v) :: kvs => keyNotIn k kvs && wfV v && wfObj kvs
end

/-! Decimal digits.  `natToDigits` prints a natural in base 10 (most
significant digit first), exactly as JavaScript renders an integral number. -/

def digitChar (n : Nat) : Char := Char.ofNat (48 + n)

def natToDigitsAux : Nat → Nat → Str → Str
  | 0, _, acc => acc
  | fuel + 1, n, acc =>
      if n < 10 then digitChar n :: acc
      else natToDigitsAux fuel (n / 10) (digitChar (n % 10) :: acc)

def natToDigits (n : Nat) : Str := natToDigitsAux (n + 1) n []

def intToChars : Int → Str
  | .ofNat n => natToDigits n
  | .negSucc n => '-' :: natToDigits (n + 1)

def digitsVal (ds : Str) : Nat := ds.foldl (fun a c => 10 * a + (c.toNat - 48)) 0

/-! String escaping, after QuoteJSONString: `"` and `\` get a backslash, the
named control characters get their short escapes, the remaining control
characters become `\u00XY`, and everything else is copied verbatim. -/

def hexDigit (n : Nat) : Char := Char.ofNat (if n < 10 then 48 + n else 87 + n)

def hexVal (c : Char) : Option Nat :=
  if '0' ≤ c ∧ c ≤ '9' then some (c.toNat - 48)
  else if 'a' ≤ c ∧ c ≤ 'f' then some (c.toNat - 87)
  else if 'A' ≤ c ∧ c ≤ 'F' then some (c.toNat - 55)
  else none

def escapeChar (c : Char) : Str :=
  if c = '"' then ['\\', '"']
  else if c = '\\' then ['\\', '\\']
  else if c = '\x08' then ['\\', 'b']
  else if c = '\t' then ['\\', 't']
  else if c = '\n' then ['\\', 'n']
  else if c = '\x0c' then ['\\', 'f']
  else if c = '\x0d' then ['\\', 'r']
  else if c.toNat < 32 then
    ['\\', 'u', '0', '0', hexDigit (c.toNat / 16), hexDigit (c.toNat % 16)]
  else [c]

def escapeStr (s : Str) : Str := s.flatMap escapeChar

/-- Decode a single-character escape after a backslash. -/
def decodeEscape (e : Char) : Option Char :=
  if e = '"' then some '"'
  else if e = '\\' then some '\\'
  else if e = '/' then some '/'
  else if e = 'b' then some '\x08'
  else if e = 'f' then some '\x0c'
  else if e = 'n' then some '\n'
  else if e = 'r' then some '\x0d'
  else if e = 't' then some '\t'
  else none

/-- Decode the four hex digits of a `\uXXXX` escape; fails on an invalid
digit or a code point that is not a scalar value. -/
def decodeHex4 (h1 h2 h3 h4 : Char) : Option Char :=
  match hexVal h1, hexVal h2, hexVal h3, hexVal h4 with
  | some a, some b, some c, some d =>
      let n := ((a * 16 + b) * 16 + c) * 16 + d
      let ch := Char.ofNat n
      if ch.toNat = n then some ch else none
  | _, _, _, _ => none

/-- Body of a JSON string literal, after the opening quote: characters up to
the closing quote, with escape sequences decoded.  Returns the decoded
characters and the input remaining after the closing quote. -/
def parseStringBody : Str → Option (Str × Str)
  | [] => none
  | c :: rest =>
    if c = '"' then some ([], rest)
    else if c = '\\' then
      match rest with
      | 'u' :: h1 :: h2 :: h3 :: h4 :: rest3 =>
          (decodeHex4 h1 h2 h3 h4).bind (fun ch =>
            (parseStringBody rest3).map (fun p => (ch :: p.1, p.2)))
      | e :: rest2 =>
          (decodeEscape e).bind (fun ch =>
            (parseStringBody rest2).map (fun p => (ch :: p.1, p.2)))
      | [] => none
    else if c.toNat < 32 then none
    else (parseStringBody rest).map (fun p => (c :: p.1, p.2))

/-! The two serializers of `JSON.stringify`: `minSerV` is the gap-free form
(used by `minifyJson` and by the converters' `JSON.stringify(value)` calls),
`prettyV` is the indented form `JSON.stringify(parsed, null, spaces)` used by
`formatJson`. -/

mutual
def minSerV : JsonValue → Str
  | .null => "null".data
  | .bool true => "true".data
  | .bool false => "false".data
  | .num n => intToChars n
  | .str s => '"' :: (escapeStr s ++ ['"'])
  | .arr [] => "[]".data
  | .arr (x :: xs) => '[' :: (minSerV x ++ minSerItems xs ++ [']'])
  | .obj [] => "\x7b\x7d".data
  | .obj (m :: ms) => '\x7b' :: (minSerMem m ++ minSerMems ms ++ ['\x7d'])
def minSerItems : List JsonValue → Str
  | [] => []
  | x :: xs => ',' :: (minSerV x ++ minSerItems xs)
def minSerMem : Str × JsonValue → Str
  | (k, v) => '"' :: (escapeStr k ++ '"' :: ':' :: minSerV v)
def minSerMems : List (Str × JsonValue) → Str
  | [] => []
  | m :: ms => ',' :: (minSerMem m ++ minSerMems ms)
end

def indentSp (n : Nat) : Str := List.replicate n ' '

mutual
def prettyV (gap : Nat) (ind : Nat) : JsonValue → Str
  | .null => "null".data
  | .bool true => "true".data
  | .bool false => "false".data
  | .num n => intToChars n
  | .str s => '"' :: (escapeStr s ++ ['"'])
  | .arr [] => "[]".data
  | .arr (x :: xs) =>
      '[' :: '\n' :: (indentSp (gap * (ind + 1)) ++ prettyV gap (ind + 1) x
        ++ prettyItems gap (ind + 1) xs ++ '\n' :: (indentSp (gap * ind) ++ [']']))
  | .obj [] => "\x7b\x7d".data
  | .obj (m :: ms) =>
      '\x7b' :: '\n' :: (indentSp (gap * (ind + 1)) ++ prettyMem gap (ind + 1) m
        ++ prettyMems gap (ind + 1) ms ++ '\n' :: (indentSp (gap * ind) ++ ['\x7d']))
def prettyItems (gap : Nat) (ind : Nat) : List JsonValue → Str
  | [] => []
  | x :: xs =>
      ',' :: '\n' :: (indentSp (gap * ind) ++ prettyV gap ind x ++ prettyItems gap ind xs)
def prettyMem (gap : Nat) (ind : Nat) : Str × JsonValue → Str
  | (k, v) => '"' :: (escapeStr k ++ '"' :: ':' :: ' ' :: prettyV gap ind v)
def prettyMems (gap : Nat) (ind : Nat) : List (Str × JsonValue) → Str
  | [] => []
  | m :: ms =>
      ',' :: '\n' :: (indentSp (gap * ind) ++ prettyMem gap ind m ++ prettyMems gap ind ms)
end

/-- `JSON.stringify(v, null, spaces)`: a numeric space argument is clamped to
ten; zero means the gap is empty, which produces the compact form. -/
def jsonStringify (v : JsonValue) (spaces : Nat) : Str :=
  if spaces = 0 then minSerV v else prettyV (min spaces 10) 0 v

/-! Node-count measures, used only to discharge the parser's fuel. -/

mutual
def sizeV : JsonValue → Nat
  | .null => 1
  | .bool _ => 1
  | .num _ => 1
  | .str _ => 1
  | .arr xs => sizeItems xs + 1
  | .obj kvs => sizeMems kvs + 1
def sizeItems : List JsonValue → Nat
  | [] => 0
  | x :: xs => sizeV x + sizeItems xs + 1
def sizeMems : List (Str × JsonValue) → Nat
  | [] => 0
  | (_, v) :: kvs => sizeV v + sizeMems kvs + 1
end

/-! The parser.  JSON whitespace is tab, line feed, carriage return and
space.  `skipWs` is the implicit whitespace skipping of `JSON.parse`. -/

def isJsonWs (c : Char) : Bool := c = ' ' || c = '\t' || c = '\n' || c = '\x0d'

def skipWs (cs : Str) : Str := cs.dropWhile isJsonWs

def expectChars : Str → Str → Option Str
  | [], cs => some cs
  | p :: ps, c :: cs => if c = p then expectChars ps cs else none
  | _ :: _, [] => none

/-- Property assignment on a parsed object: a repeated name keeps its first
position and takes the new value, as JavaScript property definition does. -/
def insertKV : List (Str × JsonValue) → Str → JsonValue → List (Str × JsonValue)
  | [], k, v => [(k, v)]
  | (k', v') :: rest, k, v =>
      if k' = k then (k, v) :: rest else (k', v') :: insertKV rest k v

def headIs (cs : Str) (c : Char) : Bool :=
  match cs with
  | [] => false
  | x :: _ => x = c

mutual
def parseVal : Nat → Str → Option (JsonValue × Str)
  | 0, _ => none
  | fuel + 1, cs =>
    match skipWs cs with
    | [] => none
    | c :: rest =>
      if c = 'n' then (expectChars ['u', 'l', 'l'] rest).map (fun r => (.null, r))
      else if c = 't' then (expectChars ['r', 'u', 'e'] rest).map (fun r => (.bool true, r))
      else if c = 'f' then (expectChars ['a', 'l', 's', 'e'] rest).map (fun r => (.bool false, r))
      else if c = '"' then (parseStringBody rest).map (fun p => (.str p.1, p.2))
      else if c = '[' then
        if headIs (skipWs rest) ']' then some (.arr [], (skipWs rest).tail)
        else
          (parseVal fuel (skipWs rest)).bind (fun p =>
            (parseArrRest fuel p.2).map (fun q => (.arr (p.1 :: q.1), q.2)))
      else if c = '\x7b' then
        if headIs (skipWs rest) '\x7d' then some (.obj [], (skipWs rest).tail)
        else
          (parseMember fuel (skipWs rest)).bind (fun p =>
            (parseObjRest fuel p.2 (insertKV [] p.1.1 p.1.2)).map
              (fun q => (.obj q.1, q.2)))
      else if c = '-' then
        match rest.span Char.isDigit with
        | ([], _) => none
        | (ds, r) => some (.num (-(digitsVal ds : Int)), r)
      else if c.isDigit then
        match (c :: rest).span Char.isDigit with
        | (ds, r) => some (.num (digitsVal ds), r)
      else none
def parseArrRest : Nat → Str → Option (List JsonValue × Str)
  | 0, _ => none
  | fuel + 1, cs =>
    match skipWs cs with
    | [] => none
    | c :: rest =>
      if c = ',' then
        (parseVal fuel rest).bind (fun p =>
          (parseArrRest fuel p.2).map (fun q => (p.1 :: q.1, q.2)))
      else if c = ']' then some ([], rest)
      else none
def parseMember : Nat → Str → Option ((Str × JsonValue) × Str)
  | 0, _ => none
  | fuel + 1, cs =>
    match skipWs cs with
    | [] => none
    | c :: rest =>
      if c = '"' then
        (parseStringBody rest).bind (fun kp =>
          match skipWs kp.2 with
          | [] => none
          | c2 :: rest2 =>
            if c2 = ':' then
              (parseVal fuel rest2).map (fun p => ((kp.1, p.1), p.2))
            else none)
      else none
def parseObjRest : Nat → Str → List (Str × JsonValue) → Option (List (Str × JsonValue) × Str)
  | 0, _, _ => none
  | fuel + 1, cs, acc =>
    match skipWs cs with
    | [] => none
    | c :: rest =>
      if c = ',' then
        (parseMember fuel rest).bind (fun p =>
          parseObjRest fuel p.2 (insertKV acc p.1.1 p.1.2))
      else if c = '\x7d' then some (acc, rest)
      else none
end

/-- `JSON.parse`: parse one value, then require only whitespace to remain.
The fuel `length + 1` always suffices, since every recursive step consumes at
least one input character. -/
def parse (s : Str) : Option JsonValue :=
  match parseVal (s.length + 1) s with
  | some (v, rest) => if (skipWs rest).isEmpty then some v else none
  | none => none

/-! `src/app/utils/jsonFormatter.ts`. -/

/-- JavaScript `String.prototype.trim` whitespace (the WhiteSpace and
LineTerminator characters this model carries); a superset of JSON
whitespace.  Only emptiness of the trimmed string is ever used, which is
the emptiness of `dropWhile`. -/
def isJsWs (c : Char) : Bool :=
  isJsonWs c || c = '\x0b' || c = '\x0c' || c = '\u00A0' || c = '\uFEFF'

/-- `!input.trim()`: true iff the input is empty or all-whitespace. -/
def trimmedEmpty (s : Str) : Bool := (s.dropWhile isJsWs).isEmpty

structure FormatResult where
  formatted : Str
  error : Option Str
deriving DecidableEq

/-- `formatJson(input, spaces)`.  The `catch` branch surfaces the engine's
exception message; it is modelled by a fixed text, which no claim inspects. -/
def formatJson (input : Str) (spaces : Nat := 2) : FormatResult :=
  if trimmedEmpty input then ⟨[], some "Input is empty".data⟩
  else
    match parse input with
    | some v => ⟨jsonStringify v spaces, none⟩
    | none => ⟨[], some "Invalid JSON".data⟩

/-- `minifyJson(input)`. -/
def minifyJson (input : Str) : FormatResult :=
  if trimmedEmpty input then ⟨[], some "Input is empty".data⟩
  else
    match parse input with
    | some v => ⟨minSerV v, none⟩
    | none => ⟨[], some "Invalid JSON".data⟩

/-- `parseJson(input)`: `JSON.parse` with failure turned into `null`. -/
def parseJsonJs (s : Str) : JsonValue := (parse s).getD .null

structure ValidationResult where
  valid : Bool
  error : Option Str
  line : Option Nat
  column : Option Nat
deriving DecidableEq

/-- What the engine's `JSON.parse` reported for an input: success, a
`SyntaxError` whose message may carry `position N` (the regex match
`/position (\d+)/` is folded into the optional offset), or some other
exception.  The message text is engine-specific, so `validateJson` takes
the outcome as an argument. -/
inductive ParseOutcome where
  | success
  | syntaxErr (msg : Str) (pos : Option Nat)
  | otherErr (msg : Str)

/-- JavaScript `input.split('\n')`. -/
def splitOnNl : Str → List Str
  | [] => [[]]
  | c :: rest =>
    if c = '\n' then [] :: splitOnNl rest
    else
      match splitOnNl rest with
      | [] => [[c]]
      | l :: ls => (c :: l) :: ls

/-- `validateJson(input)` given the engine's parse outcome:
`lines = input.substring(0, position).split('\n')`, `line = lines.length`,
`column = lines[lines.length - 1].length + 1`; a message without an offset
leaves `position = 0`. -/
def validateJson (input : Str) (outcome : ParseOutcome) : ValidationResult :=
  if trimmedEmpty input then ⟨false, some "Input is empty".data, none, none⟩
  else
    match outcome with
    | .success => ⟨true, none, none, none⟩
    | .syntaxErr msg posOpt =>
        let position := posOpt.getD 0
        let lines := splitOnNl (input.take position)
        ⟨false, some msg, some lines.length, some ((lines.getLastD []).length + 1)⟩
    | .otherErr msg => ⟨false, some msg, none, none⟩

/-! `src/app/utils/converters.ts`. -/

/-- JavaScript truthiness of a parsed JSON value: `null`, `false`, `0` and
the empty string are falsy; every array and object is truthy. -/
def isFalsy : JsonValue → Bool
  | .null => true
  | .bool b => !b
  | .num n => n == 0
  | .str s => s.isEmpty
  | .arr _ => false
  | .obj _ => false

/-- `String(value)` for the scalar values the converters feed it.  The
array/object cases are unreachable in every call site (each tests for
objects first), so they are given the compact JSON text merely to keep the
function total. -/
def jsToString : JsonValue → Str
  | .null => "null".data
  | .bool true => "true".data
  | .bool false => "false".data
  | .num n => intToChars n
  | .str s => s
  | v => minSerV v

/-- `str.replace(/c/g, r)` for a single-character pattern. -/
def replaceAllC (s : Str) (c : Char) (r : Str) : Str :=
  s.flatMap (fun x => if x = c then r else [x])

/-- `escapeXml`: the five sequential global replacements, ampersand first. -/
def escapeXml (s : Str) : Str :=
  replaceAllC (replaceAllC (replaceAllC (replaceAllC (replaceAllC
    s '&' "&amp;".data) '<' "&lt;".data) '>' "&gt;".data)
    '"' "&quot;".data) '\x27' "&apos;".data

/-- `escapeCsv`: quote-wrap, doubling internal quotes, when the field
contains a comma, a double quote or a newline. -/
def escapeCsv (s : Str) : Str :=
  if s.contains ',' || s.contains '"' || s.contains '\n' then
    '"' :: (replaceAllC s '"' "\"\"".data ++ ['"'])
  else s

/-- `formatYamlValue`. -/
def formatYamlValue : JsonValue → Str
  | .null => "null".data
  | .bool true => "true".data
  | .bool false => "false".data
  | .num n => intToChars n
  | .str s =>
      if s.contains ':' || s.contains '#' || s.contains '\n' then
        '"' :: (replaceAllC s '"' "\\\"".data ++ ['"'])
      else s
  | v => jsToString v

/-- `key.replace(/[^a-zA-Z0-9_-]/g, '_')`. -/
def sanitizeKey (k : Str) : Str :=
  k.map (fun c =>
    if ('a' ≤ c ∧ c ≤ 'z') ∨ ('A' ≤ c ∧ c ≤ 'Z') ∨ ('0' ≤ c ∧ c ≤ '9')
        ∨ c = '_' ∨ c = '-' then c
    else '_')

/-- `s.split('\n').map(line => pre + line).join('\n')`. -/
def indentLines (pre : Str) (s : Str) : Str :=
  List.intercalate ['\n'] ((splitOnNl s).map (fun l => pre ++ l))

def spacesN (n : Nat) : Str := List.replicate n ' '

mutual
def convertToXml : JsonValue → Str
  | .arr xs => xmlTopItems 0 xs
  | .obj kvs => xmlEntries kvs
  | .null => escapeXml (jsToString .null)
  | .bool b => escapeXml (jsToString (.bool b))
  | .num n => escapeXml (jsToString (.num n))
  | .str s => escapeXml (jsToString (.str s))
def xmlTopItems : Nat → List JsonValue → Str
  | _, [] => []
  | i, x :: xs =>
      "  <item index=\"".data ++ natToDigits i ++ "\">\n".data
        ++ indentLines (spacesN 4) (convertToXml x)
        ++ "\n  </item>\n".data ++ xmlTopItems (i + 1) xs
def xmlEntries : List (Str × JsonValue) → Str
  | [] => []
  | (k, v) :: kvs => xmlEntry k v ++ xmlEntries kvs
def xmlEntry : Str → JsonValue → Str
  | k, .arr items =>
      "  <".data ++ sanitizeKey k ++ ">\n".data
        ++ xmlKeyItems 0 items
        ++ "  </".data ++ sanitizeKey k ++ ">\n".data
  | k, .obj kvs =>
      "  <".data ++ sanitizeKey k ++ ">\n".data
        ++ indentLines (spacesN 4) (xmlEntries kvs)
        ++ "\n  </".data ++ sanitizeKey k ++ ">\n".data
  | k, .null =>
      "  <".data ++ sanitizeKey k ++ ">".data ++ escapeXml (jsToString .null)
        ++ "</".data ++ sanitizeKey k ++ ">\n".data
  | k, .bool b =>
      "  <".data ++ sanitizeKey k ++ ">".data ++ escapeXml (jsToString (.bool b))
        ++ "</".data ++ sanitizeKey k ++ ">\n".data
  | k, .num n =>
      "  <".data ++ sanitizeKey k ++ ">".data ++ escapeXml (jsToString (.num n))
        ++ "</".data ++ sanitizeKey k ++ ">\n".data
  | k, .str s =>
      "  <".data ++ sanitizeKey k ++ ">".data ++ escapeXml (jsToString (.str s))
        ++ "</".data ++ sanitizeKey k ++ ">\n".data
def xmlKeyItems : Nat → List JsonValue → Str
  | _, [] => []
  | i, x :: xs =>
      "    <item index=\"".data ++ natToDigits i ++ "\">\n".data
        ++ indentLines (spacesN 6) (convertToXml x)
        ++ "\n    </item>\n".data ++ xmlKeyItems (i + 1) xs
end

/-- `jsonToXml` on an already-parsed value. -/
def jsonToXml (j : JsonValue) : Except Str Str :=
  if isFalsy j then .error "Invalid JSON input".data
  else
    .ok ("<?xml version=\"1.0\" encoding=\"UTF-8\"?>\n<root>\n".data
      ++ convertToXml j ++ "</root>".data)

/-- `jsonToXml` on string input: `parseJson` first, with a failed parse
yielding `null` and hence the same falsy rejection. -/
def jsonToXmlStr (s : Str) : Except Str Str := jsonToXml (parseJsonJs s)

/-! The CSV converter. -/

/-- The keys an array element contributes: its own keys when it is a plain
object, nothing otherwise. -/
def keysOfItem : JsonValue → List Str
  | .obj kvs => kvs.map Prod.fst
  | _ => []

/-- One insertion step of a JavaScript `Set`: append if not yet present. -/
def insertUniq (acc : List Str) (k : Str) : List Str :=
  if k ∈ acc then acc else acc ++ [k]

/-- `Array.from(new Set(l))`: deduplicate keeping first-occurrence order. -/
def jsSet (l : List Str) : List Str := l.foldl insertUniq []

/-- The column set of the array branch of `jsonToCsv`. -/
def csvKeys (items : List JsonValue) : List Str :=
  jsSet (items.flatMap keysOfItem)

/-- JavaScript object property lookup (`item[key]`); `none` is `undefined`. -/
def lookupKV (kvs : List (Str × JsonValue)) (k : Str) : Option JsonValue :=
  (kvs.find? (fun kv => kv.1 == k)).map Prod.snd

/-- One CSV cell: empty for `undefined`/`null`, compact JSON for a nested
object or array, string coercion otherwise; all through `escapeCsv`. -/
def csvField : Option JsonValue → Str
  | none => []
  | some .null => []
  | some (.arr xs) => escapeCsv (minSerV (.arr xs))
  | some (.obj kvs) => escapeCsv (minSerV (.obj kvs))
  | some (.bool b) => escapeCsv (jsToString (.bool b))
  | some (.num n) => escapeCsv (jsToString (.num n))
  | some (.str s) => escapeCsv (jsToString (.str s))

/-- One CSV data row of the array branch: a plain object fills each column
from its properties; any other element yields a row of empty fields. -/
def csvRow (ks : List Str) : JsonValue → Str
  | .obj kvs => List.intercalate [','] (ks.map (fun k => csvField (lookupKV kvs k)))
  | _ => List.intercalate [','] (ks.map (fun _ => []))

/-- `jsonToCsv` on an already-parsed value. -/
def jsonToCsv (j : JsonValue) : Except Str Str :=
  if isFalsy j then .error "Invalid JSON input".data
  else
    match j with
    | .arr items =>
        if items.isEmpty then .ok []
        else
          let ks := csvKeys items
          let header := List.intercalate [','] (ks.map escapeCsv)
          .ok (List.intercalate ['\n'] (header :: items.map (csvRow ks)))
    | .obj kvs =>
        let ks := kvs.map Prod.fst
        let header := List.intercalate [','] (ks.map escapeCsv)
        let vals := List.intercalate [','] (ks.map (fun k => csvField (lookupKV kvs k)))
        .ok (header ++ '\n' :: vals)
    | _ => .error "JSON must be an object or array for CSV conversion".data

/-- `jsonToCsv` on string input. -/
def jsonToCsvStr (s : Str) : Except Str Str := jsonToCsv (parseJsonJs s)

/-! The YAML converter. -/

mutual
def convertToYaml : JsonValue → Nat → Str
  | .arr xs, ind => yamlItems xs ind
  | .obj kvs, ind => yamlEntries kvs ind
  | .null, ind => spacesN (2 * ind) ++ formatYamlValue .null ++ ['\n']
  | .bool b, ind => spacesN (2 * ind) ++ formatYamlValue (.bool b) ++ ['\n']
  | .num n, ind => spacesN (2 * ind) ++ formatYamlValue (.num n) ++ ['\n']
  | .str s, ind => spacesN (2 * ind) ++ formatYamlValue (.str s) ++ ['\n']
def yamlItems : List JsonValue → Nat → Str
  | [], _ => []
  | x :: rest, ind => yamlItem x ind ++ yamlItems rest ind
def yamlItem : JsonValue → Nat → Str
  | .arr xs, ind => spacesN (2 * ind) ++ '-' :: '\n' :: yamlItems xs (ind + 1)
  | .obj kvs, ind => spacesN (2 * ind) ++ '-' :: '\n' :: yamlEntries kvs (ind + 1)
  | x, ind => spacesN (2 * ind) ++ '-' :: ' ' :: (formatYamlValue x ++ ['\n'])
def yamlEntries : List (Str × JsonValue) → Nat → Str
  | [], _ => []
  | (k, v) :: rest, ind => yamlEntry k v ind ++ yamlEntries rest ind
def yamlEntry : Str → JsonValue → Nat → Str
  | k, .arr xs, ind => spacesN (2 * ind) ++ k ++ ':' :: '\n' :: yamlItems xs (ind + 1)
  | k, .obj kvs, ind => spacesN (2 * ind) ++ k ++ ':' :: '\n' :: yamlEntries kvs (ind + 1)
  | k, v, ind => spacesN (2 * ind) ++ k ++ ':' :: ' ' :: (formatYamlValue v ++ ['\n'])
end

/-- `jsonToYaml` on an already-parsed value. -/
def jsonToYaml (j : JsonValue) : Except Str Str :=
  if isFalsy j then .error "Invalid JSON input".data
  else .ok (convertToYaml j 0)

/-- `jsonToYaml` on string input. -/
def jsonToYamlStr (s : Str) : Except Str Str := jsonToYaml (parseJsonJs s)

/-- A value that is neither an array nor a plain object. -/
def isScalar : JsonValue → Bool
  | .null => true
  | .bool _ => true
  | .num _ => true
  | .str _ => true
  | .arr _ => false
  | .obj _ => false

/-! ## Claims -/

/-- C10: `jsonToCsv` applied to the empty array returns the empty string:
no header row and no data rows are emitted. -/
theorem c10_csv_empty_array : jsonToCsv (.arr []) = .ok [] := rfl

/-- C9: for every input whose parse succeeds but yields a falsy top-level
value (`null`, `false`, `0`, or the empty string), `jsonToXml`, `jsonToCsv`
and `jsonToYaml` all fail with "Invalid JSON input" — the same error used
for unparseable input (witnessed here by the unparseable text `x`) — and in
particular not with the CSV shape error. -/
theorem c9_falsy_rejected_as_invalid (s : Str) (v : JsonValue)
    (hp : parse s = some v) (hf : isFalsy v = true) :
    jsonToXmlStr s = .error "Invalid JSON input".data ∧
    jsonToCsvStr s = .error "Invalid JSON input".data ∧
    jsonToYamlStr s = .error "Invalid JSON input".data ∧
    jsonToXmlStr "x".data = .error "Invalid JSON input".data ∧
    "Invalid JSON input".data ≠ "JSON must be an object or array for CSV conversion".data := by
  have hv : parseJsonJs s = v := by simp [parseJsonJs, hp]
  refine ⟨?_, ?_, ?_, rfl, by decide⟩
  · simp [jsonToXmlStr, hv, jsonToXml, hf]
  · simp [jsonToCsvStr, hv, jsonToCsv, hf]
  · simp [jsonToYamlStr, hv, jsonToYaml, hf]

/-- Witness for C9 at the input `0`. -/
theorem c9_falsy_rejected_as_invalid_witness :
    parse "0".data = some (.num 0) ∧ isFalsy (.num 0) = true ∧
    (jsonToXmlStr "0".data = .error "Invalid JSON input".data ∧
     jsonToCsvStr "0".data = .error "Invalid JSON input".data ∧
     jsonToYamlStr "0".data = .error "Invalid JSON input".data ∧
     jsonToXmlStr "x".data = .error "Invalid JSON input".data ∧
     "Invalid JSON input".data ≠ "JSON must be an object or array for CSV conversion".data) :=
  ⟨by decide, by decide,
    c9_falsy_rejected_as_invalid "0".data (.num 0) (by decide) (by decide)⟩

/-- C2 fails as stated: the input `false` parses to a value that is neither
an array nor a plain object, yet `jsonToCsv` rejects it with
"Invalid JSON input" (the falsy guard fires first), not with
"JSON must be an object or array for CSV conversion". -/
theorem c2_scalar_error_counterexample :
    parse "false".data = some (.bool false) ∧
    jsonToCsvStr "false".data = .error "Invalid JSON input".data ∧
    ¬ jsonToCsvStr "false".data
        = .error "JSON must be an object or array for CSV conversion".data := by
  refine ⟨by decide, rfl, fun h => ?_⟩
  rw [show jsonToCsvStr "false".data = .error "Invalid JSON input".data from rfl] at h
  exact absurd (Except.error.inj h) (by decide)

/-- C2 amended: a parseable top-level scalar is rejected by `jsonToCsv`,
with the shape error "JSON must be an object or array for CSV conversion"
when the scalar is truthy (`true`, a non-zero number, a non-empty string),
and with "Invalid JSON input" when it is falsy (`null`, `false`, `0`, the
empty string). -/
theorem c2_scalar_error_amended (s : Str) (v : JsonValue)
    (hp : parse s = some v) (hs : isScalar v = true) :
    jsonToCsvStr s = .error (if isFalsy v then "Invalid JSON input".data
      else "JSON must be an object or array for CSV conversion".data) := by
  have hv : parseJsonJs s = v := by simp [parseJsonJs, hp]
  rw [jsonToCsvStr, hv]
  cases v with
  | null => simp [jsonToCsv, isFalsy]
  | bool b => cases b <;> simp [jsonToCsv, isFalsy]
  | num n =>
      by_cases h0 : n = 0
      · simp [jsonToCsv, isFalsy, h0]
      · simp [jsonToCsv, isFalsy, h0]
  | str cs => cases cs <;> simp [jsonToCsv, isFalsy]
  | arr xs => simp [isScalar] at hs
  | obj kvs => simp [isScalar] at hs

/-- Witness for the amended C2 at the truthy scalar input `5` and the falsy
scalar input `null`. -/
theorem c2_scalar_error_amended_witness :
    (parse "5".data = some (.num 5) ∧ isScalar (.num 5) = true ∧
      jsonToCsvStr "5".data = .error (if isFalsy (.num 5) then "Invalid JSON input".data
        else "JSON must be an object or array for CSV conversion".data)) ∧
    (parse "null".data = some .null ∧ isScalar JsonValue.null = true ∧
      jsonToCsvStr "null".data = .error (if isFalsy JsonValue.null then "Invalid JSON input".data
        else "JSON must be an object or array for CSV conversion".data)) :=
  ⟨⟨by decide, by decide, c2_scalar_error_amended "5".data (.num 5) (by decide) (by decide)⟩,
   ⟨by decide, by decide, c2_scalar_error_amended "null".data .null (by decide) (by decide)⟩⟩

/-- C4 fails as stated: a `SyntaxError` whose diagnostic carries no offset
does not leave line/column omitted — the offset defaults to `0`, so
`validateJson` reports `line = 1`, `column = 1`. -/
theorem c4_no_offset_counterexample :
    (validateJson "\x7b".data (.syntaxErr "Unexpected end of JSON input".data none)).line
        = some 1 ∧
    (validateJson "\x7b".data (.syntaxErr "Unexpected end of JSON input".data none)).column
        = some 1 ∧
    (validateJson "\x7b".data (.syntaxErr "Unexpected end of JSON input".data none)).valid
        = false := by
  refine ⟨rfl, rfl, rfl⟩

/-- C4 amended: on a syntax error without an offset (and input that is not
all whitespace, which returns "Input is empty" earlier), `validateJson`
returns invalid with the error message and with `line = 1`, `column = 1`,
the position having defaulted to `0`. -/
theorem c4_no_offset_amended (input msg : Str) (hne : trimmedEmpty input = false) :
    validateJson input (.syntaxErr msg none) = ⟨false, some msg, some 1, some 1⟩ := by
  simp [validateJson, hne, splitOnNl]

/-- Witness for the amended C4. -/
theorem c4_no_offset_amended_witness :
    trimmedEmpty "\x7b".data = false ∧
    validateJson "\x7b".data (.syntaxErr "e".data none)
      = ⟨false, some "e".data, some 1, some 1⟩ :=
  ⟨by decide, c4_no_offset_amended "\x7b".data "e".data (by decide)⟩

/-! Auxiliary facts about `splitOnNl`, for the line/column computation. -/

theorem splitOnNl_ne_nil (s : Str) : splitOnNl s ≠ [] := by
  induction s with
  | nil => simp [splitOnNl]
  | cons c rest ih =>
      by_cases h : c = '\n'
      · simp [splitOnNl, h]
      · simp only [splitOnNl, if_neg h]
        cases hr : splitOnNl rest with
        | nil => simp
        | cons l ls => simp

theorem length_splitOnNl (s : Str) : (splitOnNl s).length = s.count '\n' + 1 := by
  induction s with
  | nil => simp [splitOnNl]
  | cons c rest ih =>
      by_cases h : c = '\n'
      · subst h
        simp [splitOnNl, ih, List.count_cons]
      · simp only [splitOnNl, if_neg h]
        cases hr : splitOnNl rest with
        | nil => exact absurd hr (splitOnNl_ne_nil rest)
        | cons l ls =>
            rw [hr] at ih
            simp only [List.length_cons] at ih ⊢
            rw [ih, List.count_cons]
            simp [h]

theorem getLastD_irrel {l : List Str} (h : l ≠ []) (d d' : Str) :
    l.getLastD d = l.getLastD d' := by
  cases l with
  | nil => exact absurd rfl h
  | cons a l => rw [List.getLastD_cons, List.getLastD_cons]

theorem splitOnNl_no_nl {s : Str} (h : '\n' ∉ s) : splitOnNl s = [s] := by
  induction s with
  | nil => rfl
  | cons c rest ih =>
      have hc : c ≠ '\n' := by
        intro hc; exact h (hc ▸ List.mem_cons_self c rest)
      have hrest : '\n' ∉ rest := fun hm => h (List.mem_cons_of_mem c hm)
      simp only [splitOnNl, if_neg hc, ih hrest]

theorem getLastD_splitOnNl_append (s t : Str) :
    (splitOnNl (s ++ '\n' :: t)).getLastD [] = (splitOnNl t).getLastD [] := by
  induction s with
  | nil =>
      have h1 : splitOnNl ('\n' :: t) = [] :: splitOnNl t := by simp [splitOnNl]
      rw [List.nil_append, h1, List.getLastD_cons]
  | cons c rest ih =>
      by_cases h : c = '\n'
      · subst h
        have h1 : splitOnNl ('\n' :: (rest ++ '\n' :: t))
            = [] :: splitOnNl (rest ++ '\n' :: t) := by simp [splitOnNl]
        rw [List.cons_append, h1, List.getLastD_cons]
        exact ih
      · simp only [List.cons_append, splitOnNl, if_neg h]
        cases hr : splitOnNl (rest ++ '\n' :: t) with
        | nil => exact absurd hr (splitOnNl_ne_nil _)
        | cons l ls =>
            cases ls with
            | nil =>
                have hlen := length_splitOnNl (rest ++ '\n' :: t)
                rw [hr] at hlen
                simp [List.count_append, List.count_cons] at hlen
            | cons l2 ls2 =>
                rw [hr] at ih
                simpa [List.getLastD_cons] using ih

/-- C3: on a syntax error carrying character offset `pos` (and input that is
not all whitespace, which returns "Input is empty" before parsing), the
reported line is the newline count of `input[0:pos]` plus one, and the
reported column is `pos` minus the index of the last newline before the
offset — equivalently the length of the last line of that prefix plus one,
which is `pos + 1` when no newline precedes the offset. -/
theorem c3_line_column_from_offset (input msg : Str) (pos : Nat)
    (hne : trimmedEmpty input = false) (hle : pos ≤ input.length) :
    (validateJson input (.syntaxErr msg (some pos))).valid = false ∧
    (validateJson input (.syntaxErr msg (some pos))).error = some msg ∧
    (validateJson input (.syntaxErr msg (some pos))).line
        = some ((input.take pos).count '\n' + 1) ∧
    ('\n' ∉ input.take pos →
      (validateJson input (.syntaxErr msg (some pos))).column = some (pos + 1)) ∧
    (∀ i, (input.take pos).get? i = some '\n' →
      (∀ j, i < j → (input.take pos).get? j ≠ some '\n') →
      (validateJson input (.syntaxErr msg (some pos))).column = some (pos - i)) := by
  have hlen : (input.take pos).length = pos := by
    rw [List.length_take]
    omega
  simp only [validateJson, hne, Bool.false_eq_true, if_false, Option.getD_some]
  refine ⟨trivial, trivial, by rw [length_splitOnNl], ?_, ?_⟩
  · intro hnl
    rw [splitOnNl_no_nl hnl]
    simp [hlen]
  · intro i hi hlast
    have hilt : i < (input.take pos).length := List.get?_eq_some.mp hi |>.1
    have hdec : input.take pos
        = (input.take pos).take i ++ '\n' :: (input.take pos).drop (i + 1) := by
      conv_lhs => rw [← List.take_append_drop i (input.take pos)]
      congr 1
      rw [List.drop_eq_get_cons hilt]
      congr 1
      exact Option.some.inj (by rw [← List.get?_eq_get hilt, hi])
    have hnd : '\n' ∉ (input.take pos).drop (i + 1) := by
      intro hm
      obtain ⟨n, hn⟩ := List.mem_iff_get?.mp hm
      rw [List.get?_drop] at hn
      exact hlast (i + 1 + n) (by omega) hn
    have : (splitOnNl (input.take pos)).getLastD []
        = (input.take pos).drop (i + 1) := by
      conv_lhs => rw [hdec]
      rw [getLastD_splitOnNl_append, splitOnNl_no_nl hnd, List.getLastD_cons]
      rfl
    rw [this]
    simp only [List.length_drop, hlen]
    congr 1
    omega

/-- Witness for C3 at the input `{\nab` with offset 4: line 2, and the last
newline sits at index 1, so the column is 4 - 1 = 3. -/
theorem c3_line_column_from_offset_witness :
    trimmedEmpty "\x7b\nab".data = false ∧ 4 ≤ "\x7b\nab".data.length ∧
    ((validateJson "\x7b\nab".data (.syntaxErr "e".data (some 4))).valid = false ∧
     (validateJson "\x7b\nab".data (.syntaxErr "e".data (some 4))).error = some "e".data ∧
     (validateJson "\x7b\nab".data (.syntaxErr "e".data (some 4))).line
         = some (("\x7b\nab".data.take 4).count '\n' + 1) ∧
     ('\n' ∉ "\x7b\nab".data.take 4 →
       (validateJson "\x7b\nab".data (.syntaxErr "e".data (some 4))).column = some (4 + 1)) ∧
     (∀ i, ("\x7b\nab".data.take 4).get? i = some '\n' →
       (∀ j, i < j → ("\x7b\nab".data.take 4).get? j ≠ some '\n') →
       (validateJson "\x7b\nab".data (.syntaxErr "e".data (some 4))).column = some (4 - i))) :=
  ⟨by decide, by decide,
    c3_line_column_from_offset "\x7b\nab".data "e".data 4 (by decide) (by decide)⟩

/-- Spec side, C6: the quoting trigger — the raw field contains a comma, a
double quote, or a newline. -/
def csvNeedsQuoting (s : Str) : Prop := ',' ∈ s ∨ '"' ∈ s ∨ '\n' ∈ s

instance (s : Str) : Decidable (csvNeedsQuoting s) := by
  unfold csvNeedsQuoting; infer_instance

/-- Spec side, C6: the quoted form — wrapped in double quotes with each
internal double quote doubled. -/
def csvQuoted (s : Str) : Str :=
  '"' :: (s.flatMap (fun c => if c = '"' then ['"', '"'] else [c]) ++ ['"'])

theorem contains_false_of_not_mem {s : Str} {c : Char} (h : c ∉ s) :
    s.contains c = false := by
  rw [← Bool.not_eq_true]
  intro hc
  exact h (List.elem_iff.mp hc)

theorem length_le_flatMap_quotes (s : Str) :
    s.length ≤ (s.flatMap (fun c => if c = '"' then ['"', '"'] else [c])).length := by
  induction s with
  | nil => simp
  | cons c rest ih =>
      rw [List.flatMap_cons, List.length_append, List.length_cons]
      by_cases h : c = '"'
      · rw [if_pos h]
        simp only [List.length_cons, List.length_singleton]
        omega
      · rw [if_neg h]
        simp only [List.length_singleton]
        omega

/-- C6: a CSV field is emitted wrapped in double quotes with internal
quotes doubled exactly when the raw text contains a comma, a double quote
or a newline, and verbatim otherwise; headers and values both pass through
this function, as the worked row `a,b` / `1,"x,y"` shows. -/
theorem c6_escapeCsv_quoting (s : Str) :
    (csvNeedsQuoting s → escapeCsv s = csvQuoted s ∧ escapeCsv s ≠ s) ∧
    (¬ csvNeedsQuoting s → escapeCsv s = s) ∧
    jsonToCsv (.obj [("a".data, .num 1), ("b".data, .str "x,y".data)])
        = .ok "a,b\n1,\"x,y\"".data := by
  refine ⟨fun h => ⟨?_, ?_⟩, fun h => ?_, rfl⟩
  · have hb : (s.contains ',' || s.contains '"' || s.contains '\n') = true := by
      rcases h with h | h | h <;> simp [h]
    rw [escapeCsv, if_pos hb]
    rfl
  · have hb : (s.contains ',' || s.contains '"' || s.contains '\n') = true := by
      rcases h with h | h | h <;> simp [h]
    rw [escapeCsv, if_pos hb]
    intro heq
    have hlen := congrArg List.length heq
    have hle := length_le_flatMap_quotes s
    simp only [List.length_cons, List.length_append, List.length_singleton] at hlen
    have : replaceAllC s '"' "\"\"".data
        = s.flatMap (fun c => if c = '"' then ['"', '"'] else [c]) := rfl
    rw [this] at hlen
    omega
  · have hb : (s.contains ',' || s.contains '"' || s.contains '\n') = false := by
      simp only [csvNeedsQuoting, not_or] at h
      rw [contains_false_of_not_mem h.1, contains_false_of_not_mem h.2.1,
        contains_false_of_not_mem h.2.2]
      rfl
    rw [escapeCsv, if_neg (by rw [hb]; exact Bool.false_ne_true)]

/-- Witness for C6 at the quoted field `x,y` and the verbatim field `ab`. -/
theorem c6_escapeCsv_quoting_witness :
    (csvNeedsQuoting "x,y".data ∧
      (escapeCsv "x,y".data = csvQuoted "x,y".data ∧ escapeCsv "x,y".data ≠ "x,y".data)) ∧
    (¬ csvNeedsQuoting "ab".data ∧ escapeCsv "ab".data = "ab".data) :=
  ⟨⟨by decide, (c6_escapeCsv_quoting "x,y".data).1 (by decide)⟩,
   ⟨by decide, (c6_escapeCsv_quoting "ab".data).2.1 (by decide)⟩⟩

/-- C7: converting an object emits one element per key, in insertion order,
concatenated without any deduplication; each scalar-valued key becomes
`<tag>value</tag>` with the tag `sanitizeKey key` (every character outside
`[A-Za-z0-9_-]` replaced by `_`, all others kept).  In particular
`jsonToXml` on an object with the key `a b` yields `<a_b>1</a_b>` under
`<root>`, and two keys that sanitize alike are both emitted. -/
theorem c7_xml_keys_sanitized_in_order :
    (∀ kvs : List (Str × JsonValue),
      xmlEntries kvs = (kvs.map (fun kv => xmlEntry kv.1 kv.2)).flatten) ∧
    (∀ (k : Str) (n : Int),
      xmlEntry k (.num n) = "  <".data ++ sanitizeKey k ++ ">".data
        ++ escapeXml (jsToString (.num n)) ++ "</".data ++ sanitizeKey k ++ ">\n".data) ∧
    (∀ (k : Str) (c : Char), c ∈ sanitizeKey k ↔
      ∃ c0 ∈ k, (if ('a' ≤ c0 ∧ c0 ≤ 'z') ∨ ('A' ≤ c0 ∧ c0 ≤ 'Z') ∨ ('0' ≤ c0 ∧ c0 ≤ '9')
          ∨ c0 = '_' ∨ c0 = '-' then c0 else '_') = c) ∧
    jsonToXml (.obj [("a b".data, .num 1)])
      = .ok "<?xml version=\"1.0\" encoding=\"UTF-8\"?>\n<root>\n  <a_b>1</a_b>\n</root>".data ∧
    jsonToXml (.obj [("a b".data, .num 1), ("a?b".data, .num 2)])
      = .ok ("<?xml version=\"1.0\" encoding=\"UTF-8\"?>\n<root>\n"
          ++ "  <a_b>1</a_b>\n  <a_b>2</a_b>\n</root>").data := by
  refine ⟨?_, fun k n => rfl, fun k c => ?_, rfl, rfl⟩
  · intro kvs
    induction kvs with
    | nil => rfl
    | cons kv rest ih => simp [xmlEntries, ih]
  · simp [sanitizeKey, List.mem_map]

/-- C8: a scalar array element is emitted as `- <scalar>` on one line at the
current 2-space indentation level; an object key whose value is an array or
object is emitted as `key:` alone followed by the nested block one level
deeper; a scalar-valued key is emitted inline as `key: <scalar>`.  The
worked example yields `a:`, `  - 1`, `  - 2`, `b:`, `  c: 3`. -/
theorem c8_yaml_block_shapes (ind : Nat) (k : Str) (v : JsonValue)
    (hs : isScalar v = true) :
    yamlItem v ind = spacesN (2 * ind) ++ '-' :: ' ' :: (formatYamlValue v ++ ['\n']) ∧
    yamlEntry k v ind = spacesN (2 * ind) ++ k ++ ':' :: ' ' :: (formatYamlValue v ++ ['\n']) ∧
    (∀ xs, yamlEntry k (.arr xs) ind
        = spacesN (2 * ind) ++ k ++ ':' :: '\n' :: yamlItems xs (ind + 1)) ∧
    (∀ kvs, yamlEntry k (.obj kvs) ind
        = spacesN (2 * ind) ++ k ++ ':' :: '\n' :: yamlEntries kvs (ind + 1)) ∧
    jsonToYaml (.obj [("a".data, .arr [.num 1, .num 2]), ("b".data, .obj [("c".data, .num 3)])])
        = .ok "a:\n  - 1\n  - 2\nb:\n  c: 3\n".data := by
  refine ⟨?_, ?_, fun xs => rfl, fun kvs => rfl, rfl⟩ <;>
    cases v <;> simp [isScalar] at hs ⊢ <;> simp [yamlItem, yamlEntry]

/-- Witness for C8 at indentation 1, key `k`, scalar value `7`. -/
theorem c8_yaml_block_shapes_witness :
    isScalar (.num 7) = true ∧
    (yamlItem (.num 7) 1 = spacesN (2 * 1) ++ '-' :: ' ' :: (formatYamlValue (.num 7) ++ ['\n']) ∧
     yamlEntry "k".data (.num 7) 1
        = spacesN (2 * 1) ++ "k".data ++ ':' :: ' ' :: (formatYamlValue (.num 7) ++ ['\n']) ∧
     (∀ xs, yamlEntry "k".data (.arr xs) 1
        = spacesN (2 * 1) ++ "k".data ++ ':' :: '\n' :: yamlItems xs (1 + 1)) ∧
     (∀ kvs, yamlEntry "k".data (.obj kvs) 1
        = spacesN (2 * 1) ++ "k".data ++ ':' :: '\n' :: yamlEntries kvs (1 + 1)) ∧
     jsonToYaml (.obj [("a".data, .arr [.num 1, .num 2]), ("b".data, .obj [("c".data, .num 3)])])
        = .ok "a:\n  - 1\n  - 2\nb:\n  c: 3\n".data) :=
  ⟨by decide, c8_yaml_block_shapes 1 "k".data (.num 7) (by decide)⟩

/-- Spec side, C5: first-seen-order union — keep each key's first
occurrence, dropping all its later ones. -/
def dedupFirst : List Str → List Str
  | [] => []
  | k :: ks => k :: dedupFirst (ks.filter (fun k2 => !(decide (k2 = k))))
  termination_by l => l.length
  decreasing_by
    simp only [List.length_cons]
    exact Nat.lt_succ_of_le (List.length_filter_le _ _)

theorem mem_insertUniq (acc : List Str) (k x : Str) :
    x ∈ insertUniq acc k ↔ x ∈ acc ∨ x = k := by
  unfold insertUniq
  by_cases h : k ∈ acc
  · simp only [if_pos h]
    constructor
    · exact fun hx => Or.inl hx
    · rintro (hx | rfl) <;> assumption
  · simp [if_neg h]

theorem mem_foldl_insertUniq (l : List Str) :
    ∀ (acc : List Str) (x : Str), x ∈ l.foldl insertUniq acc ↔ x ∈ acc ∨ x ∈ l := by
  induction l with
  | nil => simp
  | cons k l ih =>
      intro acc x
      rw [List.foldl_cons, ih, mem_insertUniq]
      simp [or_assoc]

theorem nodup_foldl_insertUniq (l : List Str) :
    ∀ acc : List Str, acc.Nodup → (l.foldl insertUniq acc).Nodup := by
  induction l with
  | nil => exact fun acc h => h
  | cons k l ih =>
      intro acc hacc
      rw [List.foldl_cons]
      refine ih _ ?_
      unfold insertUniq
      by_cases h : k ∈ acc
      · rwa [if_pos h]
      · rw [if_neg h]
        simp [List.nodup_append, hacc, h]

theorem foldl_insertUniq_eq_dedupFirst (l : List Str) :
    ∀ acc : List Str,
      l.foldl insertUniq acc
        = acc ++ dedupFirst (l.filter (fun x => !(decide (x ∈ acc)))) := by
  induction l with
  | nil => simp [dedupFirst]
  | cons k l ih =>
      intro acc
      rw [List.foldl_cons]
      by_cases h : k ∈ acc
      · rw [show insertUniq acc k = acc from by rw [insertUniq, if_pos h]]
        rw [ih acc, List.filter_cons]
        simp [h]
      · rw [show insertUniq acc k = acc ++ [k] from by rw [insertUniq, if_neg h]]
        have hcond : (!decide (k ∈ acc)) = true := by simp [h]
        rw [ih (acc ++ [k]), List.filter_cons, if_pos hcond]
        rw [dedupFirst, List.append_assoc, List.singleton_append]
        congr 3
        rw [List.filter_filter]
        apply List.filter_congr
        intro x _
        simp only [List.mem_append, List.mem_singleton, decide_not]
        by_cases hx : x = k
        · subst hx; simp
        · by_cases ha : x ∈ acc <;> simp [hx, ha]

theorem jsSet_eq_dedupFirst (l : List Str) : jsSet l = dedupFirst l := by
  rw [jsSet, foldl_insertUniq_eq_dedupFirst l []]
  simp

/-- C5: for a non-empty array, the header's column set is the union of the
keys of the plain-object elements in first-seen order (and hence without
repeats); a non-object element produces a row of empty fields; a missing or
null value renders as the empty string; and the worked example gives header
`a,b` with rows `1,2` and `3,`. -/
theorem c5_csv_array_shape (items : List JsonValue) (hne : items ≠ []) :
    csvKeys items = dedupFirst (items.flatMap keysOfItem) ∧
    (∀ k, k ∈ csvKeys items ↔ ∃ kvs, JsonValue.obj kvs ∈ items ∧ k ∈ kvs.map Prod.fst) ∧
    (csvKeys items).Nodup ∧
    (∀ (ks : List Str) (item : JsonValue), (∀ kvs, item ≠ .obj kvs) →
      csvRow ks item = List.intercalate [','] (List.replicate ks.length ([] : Str))) ∧
    csvField none = [] ∧ csvField (some .null) = [] ∧
    jsonToCsv (.arr items)
      = .ok (List.intercalate ['\n']
          (List.intercalate [','] ((csvKeys items).map escapeCsv)
            :: items.map (csvRow (csvKeys items)))) ∧
    jsonToCsv (.arr [.obj [("a".data, .num 1), ("b".data, .num 2)],
        .obj [("a".data, .num 3)]])
      = .ok "a,b\n1,2\n3,".data := by
  refine ⟨by rw [csvKeys, jsSet_eq_dedupFirst], ?_, ?_, ?_, rfl, rfl, ?_, rfl⟩
  · intro k
    rw [csvKeys, jsSet, mem_foldl_insertUniq]
    simp only [List.not_mem_nil, false_or, List.mem_flatMap]
    constructor
    · rintro ⟨item, hi, hk⟩
      cases item with
      | obj kvs => exact ⟨kvs, hi, hk⟩
      | null => exact absurd hk (by simp [keysOfItem])
      | bool b => exact absurd hk (by simp [keysOfItem])
      | num n => exact absurd hk (by simp [keysOfItem])
      | str cs => exact absurd hk (by simp [keysOfItem])
      | arr xs => exact absurd hk (by simp [keysOfItem])
    · rintro ⟨kvs, hi, hk⟩
      exact ⟨.obj kvs, hi, hk⟩
  · exact nodup_foldl_insertUniq _ [] List.nodup_nil
  · intro ks item hno
    cases item with
    | obj kvs => exact absurd rfl (hno kvs)
    | null => simp [csvRow, List.map_const']
    | bool b => simp [csvRow, List.map_const']
    | num n => simp [csvRow, List.map_const']
    | str cs => simp [csvRow, List.map_const']
    | arr xs => simp [csvRow, List.map_const']
  · have hie : items.isEmpty = false := by
      cases items with
      | nil => exact absurd rfl hne
      | cons a l => rfl
    simp [jsonToCsv, isFalsy, hie]

/-- Witness for C5 at the spec's two-element example array. -/
theorem c5_csv_array_shape_witness :
    ([.obj [("a".data, .num 1), ("b".data, .num 2)], .obj [("a".data, .num 3)]]
        : List JsonValue) ≠ [] ∧
    jsonToCsv (.arr [.obj [("a".data, .num 1), ("b".data, .num 2)],
        .obj [("a".data, .num 3)]])
      = .ok "a,b\n1,2\n3,".data :=
  ⟨by decide,
    (c5_csv_array_shape
      [.obj [("a".data, .num 1), ("b".data, .num 2)], .obj [("a".data, .num 3)]]
      (by decide)).2.2.2.2.2.2.2⟩

/-! Support for the round-trip proof (C1). -/

def allWs (w : Str) : Prop := ∀ c ∈ w, isJsonWs c = true

/-- What may follow a serialized value: end of input or anything that does
not start with a decimal digit (a comma, a closing bracket or brace, or
pretty-printer whitespace), so a number never absorbs its delimiter. -/
def noDigitStart (cs : Str) : Prop := ∀ c t, cs = c :: t → c.isDigit = false

theorem noDigitStart_nil : noDigitStart [] := fun _ _ h => List.noConfusion h

theorem noDigitStart_cons {c : Char} (t : Str) (h : c.isDigit = false) :
    noDigitStart (c :: t) := by
  intro c2 t2 h2
  cases h2
  exact h

theorem ws_not_digit {c : Char} (h : isJsonWs c = true) : c.isDigit = false := by
  rw [isJsonWs] at h
  simp only [Bool.or_eq_true, decide_eq_true_eq] at h
  rcases h with ((rfl | rfl) | rfl) | rfl <;> decide

theorem skipWs_cons_not_ws {c : Char} (t : Str) (h : isJsonWs c = false) :
    skipWs (c :: t) = c :: t := by
  simp [skipWs, List.dropWhile_cons, h]

theorem skipWs_ws_append {w : Str} (z : Str) (h : allWs w) :
    skipWs (w ++ z) = skipWs z := by
  induction w with
  | nil => rfl
  | cons c t ih =>
      have hc : isJsonWs c = true := h c (List.mem_cons_self c t)
      have ht : allWs t := fun x hx => h x (List.mem_cons_of_mem c hx)
      rw [List.cons_append, skipWs, List.dropWhile_cons, if_pos hc]
      exact ih ht

theorem allWs_indentSp (n : Nat) : allWs (indentSp n) := by
  intro c hc
  rw [indentSp] at hc
  rw [List.eq_of_mem_replicate hc]
  rfl

theorem allWs_nl_indent (n : Nat) : allWs ('\n' :: indentSp n) := by
  intro c hc
  rcases List.mem_cons.mp hc with rfl | hc
  · rfl
  · exact allWs_indentSp n c hc

theorem parseVal_ws (fuel : Nat) {w : Str} (cs : Str) (h : allWs w) :
    parseVal fuel (w ++ cs) = parseVal fuel cs := by
  cases fuel with
  | zero => rfl
  | succ f => rw [parseVal, parseVal, skipWs_ws_append cs h]

/-- A serialized value starts with a character that is neither whitespace
nor a closing bracket or brace. -/
def goodHead (cs : Str) : Prop :=
  ∃ c t, cs = c :: t ∧ isJsonWs c = false ∧ c ≠ ']' ∧ c ≠ '\x7d'

theorem digit_facts {c : Char} (h : c.isDigit = true) :
    isJsonWs c = false ∧ c ≠ ']' ∧ c ≠ '\x7d' ∧ c ≠ 'n' ∧ c ≠ 't' ∧ c ≠ 'f'
      ∧ c ≠ '"' ∧ c ≠ '[' ∧ c ≠ '\x7b' ∧ c ≠ '-' ∧ c ≠ ',' ∧ c ≠ '\n' := by
  rw [Char.isDigit] at h
  have h1 : 48 ≤ c.toNat := by
    have := (Bool.and_eq_true _ _).mp h |>.1
    simpa [Char.le_def] using this
  have h2 : c.toNat ≤ 57 := by
    have := (Bool.and_eq_true _ _).mp h |>.2
    simpa [Char.le_def] using this
  have hne : ∀ d : Char, (48 ≤ d.toNat → d.toNat ≤ 57 → False) → c ≠ d := by
    intro d hd he
    subst he
    exact hd h1 h2
  refine ⟨?_, hne _ (by decide), hne _ (by decide), hne _ (by decide), hne _ (by decide),
    hne _ (by decide), hne _ (by decide), hne _ (by decide), hne _ (by decide),
    hne _ (by decide), hne _ (by decide), hne _ (by decide)⟩
  simp [isJsonWs, hne ' ' (by decide), hne '\t' (by decide), hne '\n' (by decide),
    hne '\x0d' (by decide)]

theorem digitsVal_append (ds : Str) (c : Char) :
    digitsVal (ds ++ [c]) = 10 * digitsVal ds + (c.toNat - 48) := by
  rw [digitsVal, digitsVal, List.foldl_append]
  rfl

theorem digitChar_toNat {n : Nat} (h : n < 10) : (digitChar n).toNat = 48 + n := by
  interval_cases n <;> decide

theorem digitChar_isDigit {n : Nat} (h : n < 10) : (digitChar n).isDigit = true := by
  interval_cases n <;> decide

theorem natToDigitsAux_spec :
    ∀ (fuel n : Nat), n < fuel → ∀ acc,
      ∃ ds, natToDigitsAux fuel n acc = ds ++ acc ∧ ds ≠ []
        ∧ (∀ c ∈ ds, c.isDigit = true) ∧ digitsVal ds = n := by
  intro fuel
  induction fuel with
  | zero => omega
  | succ f ih =>
      intro n hn acc
      by_cases h10 : n < 10
      · refine ⟨[digitChar n], ?_, by simp, ?_, ?_⟩
        · rw [natToDigitsAux, if_pos h10]
          rfl
        · intro c hc
          rw [List.mem_singleton] at hc
          subst hc
          exact digitChar_isDigit h10
        · rw [digitsVal]
          simp [digitChar_toNat h10]
      · have hdiv : n / 10 < f := by omega
        obtain ⟨ds, heq, hne, hdig, hval⟩ := ih (n / 10) hdiv (digitChar (n % 10) :: acc)
        refine ⟨ds ++ [digitChar (n % 10)], ?_, by simp, ?_, ?_⟩
        · rw [natToDigitsAux, if_neg h10, heq, List.append_assoc, List.singleton_append]
        · intro c hc
          rcases List.mem_append.mp hc with hc | hc
          · exact hdig c hc
          · rw [List.mem_singleton] at hc
            subst hc
            exact digitChar_isDigit (Nat.mod_lt n (by omega))
        · rw [digitsVal_append, hval, digitChar_toNat (Nat.mod_lt n (by omega))]
          omega

theorem natToDigits_spec (n : Nat) :
    natToDigits n ≠ [] ∧ (∀ c ∈ natToDigits n, c.isDigit = true)
      ∧ digitsVal (natToDigits n) = n := by
  obtain ⟨ds, heq, hne, hdig, hval⟩ := natToDigitsAux_spec (n + 1) n (by omega) []
  rw [natToDigits, heq, List.append_nil]
  exact ⟨hne, hdig, hval⟩

theorem takeWhile_all_append (p : Char → Bool) (ds rest : Str)
    (h : ∀ c ∈ ds, p c = true) :
    (ds ++ rest).takeWhile p = ds ++ rest.takeWhile p := by
  induction ds with
  | nil => rfl
  | cons c t ih =>
      rw [List.cons_append, List.takeWhile_cons,
        if_pos (h c (List.mem_cons_self c t)),
        ih (fun x hx => h x (List.mem_cons_of_mem c hx)), List.cons_append]

theorem dropWhile_all_append (p : Char → Bool) (ds rest : Str)
    (h : ∀ c ∈ ds, p c = true) :
    (ds ++ rest).dropWhile p = rest.dropWhile p := by
  induction ds with
  | nil => rfl
  | cons c t ih =>
      rw [List.cons_append, List.dropWhile_cons,
        if_pos (h c (List.mem_cons_self c t)),
        ih (fun x hx => h x (List.mem_cons_of_mem c hx))]

theorem span_digits (ds rest : Str) (hds : ∀ c ∈ ds, c.isDigit = true)
    (hr : noDigitStart rest) : (ds ++ rest).span Char.isDigit = (ds, rest) := by
  rw [List.span_eq_take_drop, takeWhile_all_append _ _ _ hds,
    dropWhile_all_append _ _ _ hds]
  have hrest : rest.takeWhile Char.isDigit = [] ∧ rest.dropWhile Char.isDigit = rest := by
    cases rest with
    | nil => simp
    | cons c t =>
        have hc := hr c t rfl
        simp [List.takeWhile_cons, List.dropWhile_cons, hc]
  rw [hrest.1, hrest.2, List.append_nil]

theorem hexVal_hexDigit {n : Nat} (h : n < 16) : hexVal (hexDigit n) = some n := by
  interval_cases n <;> decide


theorem parseStringBody_escape (s : Str) : ∀ rest,
    parseStringBody (escapeStr s ++ '"' :: rest) = some (s, rest) := by
  induction s with
  | nil =>
      intro rest
      rw [show escapeStr [] ++ '"' :: rest = '"' :: rest from rfl, parseStringBody.eq_def]
      simp
  | cons c t ih =>
      intro rest
      have hesc : escapeStr (c :: t) ++ '"' :: rest
          = escapeChar c ++ (escapeStr t ++ '"' :: rest) := by
        rw [escapeStr, List.flatMap_cons, List.append_assoc]
        rfl
      rw [hesc]
      by_cases h1 : c = '"'
      · subst h1
        rw [show escapeChar '"' = ['\\', '"'] from rfl, List.cons_append, List.cons_append,
          List.nil_append, parseStringBody.eq_def]
        simp [decodeEscape, ih rest]
      by_cases h2 : c = '\\'
      · subst h2
        rw [show escapeChar '\\' = ['\\', '\\'] from rfl, List.cons_append, List.cons_append,
          List.nil_append, parseStringBody.eq_def]
        simp [decodeEscape, ih rest]
      by_cases h3 : c = '\x08'
      · subst h3
        rw [show escapeChar '\x08' = ['\\', 'b'] from rfl, List.cons_append, List.cons_append,
          List.nil_append, parseStringBody.eq_def]
        simp [decodeEscape, ih rest]
      by_cases h4 : c = '\t'
      · subst h4
        rw [show escapeChar '\t' = ['\\', 't'] from rfl, List.cons_append, List.cons_append,
          List.nil_append, parseStringBody.eq_def]
        simp [decodeEscape, ih rest]
      by_cases h5 : c = '\n'
      · subst h5
        rw [show escapeChar '\n' = ['\\', 'n'] from rfl, List.cons_append, List.cons_append,
          List.nil_append, parseStringBody.eq_def]
        simp [decodeEscape, ih rest]
      by_cases h6 : c = '\x0c'
      · subst h6
        rw [show escapeChar '\x0c' = ['\\', 'f'] from rfl, List.cons_append, List.cons_append,
          List.nil_append, parseStringBody.eq_def]
        simp [decodeEscape, ih rest]
      by_cases h7 : c = '\x0d'
      · subst h7
        rw [show escapeChar '\x0d' = ['\\', 'r'] from rfl, List.cons_append, List.cons_append,
          List.nil_append, parseStringBody.eq_def]
        simp [decodeEscape, ih rest]
      by_cases h8 : c.toNat < 32
      · have hhi : c.toNat / 16 < 16 := by omega
        have hlo : c.toNat % 16 < 16 := by omega
        have he : escapeChar c
            = ['\\', 'u', '0', '0', hexDigit (c.toNat / 16), hexDigit (c.toNat % 16)] := by
          rw [escapeChar, if_neg h1, if_neg h2, if_neg h3, if_neg h4, if_neg h5,
            if_neg h6, if_neg h7, if_pos h8]
        rw [he]
        simp only [List.cons_append, List.nil_append]
        rw [parseStringBody.eq_def]
        simp only [decodeHex4, hexVal_hexDigit hhi, hexVal_hexDigit hlo]
        rw [show hexVal '0' = some 0 from rfl]
        simp only []
        rw [show (0 * 16 + 0) * 16 + c.toNat / 16 = c.toNat / 16 from by omega]
        rw [show c.toNat / 16 * 16 + c.toNat % 16 = c.toNat from by omega, Char.ofNat_toNat]
        simp [ih rest]
      · have he : escapeChar c = [c] := by
          rw [escapeChar, if_neg h1, if_neg h2, if_neg h3, if_neg h4, if_neg h5,
            if_neg h6, if_neg h7, if_neg h8]
        rw [he, List.cons_append, List.nil_append, parseStringBody.eq_def]
        simp [h1, h2, h8, ih rest]

theorem keyNotIn_iff (k : Str) (kvs : List (Str × JsonValue)) :
    keyNotIn k kvs = true ↔ ∀ kv ∈ kvs, ¬ kv.1 = k := by
  rw [keyNotIn]
  simp

theorem insertKV_append {acc : List (Str × JsonValue)} {k : Str} (v : JsonValue)
    (h : keyNotIn k acc = true) : insertKV acc k v = acc ++ [(k, v)] := by
  induction acc with
  | nil => rfl
  | cons kv rest ih =>
      obtain ⟨k0, v0⟩ := kv
      rw [keyNotIn_iff] at h
      have hne : k0 ≠ k := h (k0, v0) (List.mem_cons_self _ _)
      have hrest : keyNotIn k rest = true :=
        (keyNotIn_iff k rest).mpr (fun kv hkv => h kv (List.mem_cons_of_mem _ hkv))
      have hstep : insertKV ((k0, v0) :: rest) k v
          = if k0 = k then (k, v) :: rest else (k0, v0) :: insertKV rest k v := rfl
      rw [hstep, if_neg hne, ih hrest, List.cons_append]

theorem wfObj_append_right {a b : List (Str × JsonValue)}
    (h : wfObj (a ++ b) = true) : wfObj b = true := by
  induction a with
  | nil => exact h
  | cons kv rest ih =>
      obtain ⟨k0, v0⟩ := kv
      rw [List.cons_append, wfObj, Bool.and_eq_true, Bool.and_eq_true] at h
      exact ih h.2

theorem wfObj_append_keyNotIn {acc : List (Str × JsonValue)} {k : Str} {v : JsonValue}
    {ms : List (Str × JsonValue)}
    (h : wfObj (acc ++ (k, v) :: ms) = true) : keyNotIn k acc = true := by
  induction acc with
  | nil => rfl
  | cons kv rest ih =>
      obtain ⟨k0, v0⟩ := kv
      rw [List.cons_append, wfObj, Bool.and_eq_true, Bool.and_eq_true] at h
      rw [keyNotIn_iff]
      intro kv2 hkv2
      rcases List.mem_cons.mp hkv2 with rfl | hkv2
      · have := (keyNotIn_iff _ _).mp h.1.1 (k, v) (by simp)
        simp only at this
        exact fun he => this he.symm
      · exact (keyNotIn_iff _ _).mp (ih h.2) kv2 hkv2

theorem wfObj_cons_parts {k : Str} {v : JsonValue} {ms : List (Str × JsonValue)}
    (h : wfObj ((k, v) :: ms) = true) :
    keyNotIn k ms = true ∧ wfV v = true ∧ wfObj ms = true := by
  rw [wfObj, Bool.and_eq_true, Bool.and_eq_true] at h
  exact ⟨h.1.1, h.1.2, h.2⟩

theorem goodHead_cons {c : Char} (t : Str)
    (h : isJsonWs c = false ∧ c ≠ ']' ∧ c ≠ '\x7d') : goodHead (c :: t) :=
  ⟨c, t, rfl, h.1, h.2.1, h.2.2⟩

theorem goodHead_num (n : Int) : goodHead (intToChars n) := by
  cases n with
  | ofNat m =>
      obtain ⟨hne, hdig, -⟩ := natToDigits_spec m
      obtain ⟨d, t, hd⟩ := List.exists_cons_of_ne_nil hne
      have hdd : d.isDigit = true := hdig d (by rw [hd]; exact List.mem_cons_self d t)
      obtain ⟨hw, h1, h2, -⟩ := digit_facts hdd
      exact ⟨d, t, by rw [intToChars, hd], hw, h1, h2⟩
  | negSucc m =>
      exact goodHead_cons _ (by decide)

theorem minSer_goodHead (v : JsonValue) : goodHead (minSerV v) := by
  cases v with
  | null => exact goodHead_cons _ (by decide)
  | bool b =>
      cases b with
      | true => exact goodHead_cons _ (by decide)
      | false => exact goodHead_cons _ (by decide)
  | num n => exact goodHead_num n
  | str s => exact goodHead_cons _ (by decide)
  | arr xs =>
      cases xs with
      | nil => exact goodHead_cons _ (by decide)
      | cons x t => exact goodHead_cons _ (by decide)
  | obj kvs =>
      cases kvs with
      | nil => exact goodHead_cons _ (by decide)
      | cons m t => exact goodHead_cons _ (by decide)

theorem pretty_goodHead (gap ind : Nat) (v : JsonValue) : goodHead (prettyV gap ind v) := by
  cases v with
  | null => exact goodHead_cons _ (by decide)
  | bool b =>
      cases b with
      | true => exact goodHead_cons _ (by decide)
      | false => exact goodHead_cons _ (by decide)
  | num n => exact goodHead_num n
  | str s => exact goodHead_cons _ (by decide)
  | arr xs =>
      cases xs with
      | nil => exact goodHead_cons _ (by decide)
      | cons x t => exact goodHead_cons _ (by decide)
  | obj kvs =>
      cases kvs with
      | nil => exact goodHead_cons _ (by decide)
      | cons m t => exact goodHead_cons _ (by decide)

theorem sizeV_pos (v : JsonValue) : 1 ≤ sizeV v := by
  cases v <;> rw [sizeV] <;> omega

theorem noDigitStart_minSerItems (xs : List JsonValue) (rest : Str) :
    noDigitStart (minSerItems xs ++ ']' :: rest) := by
  cases xs with
  | nil => exact noDigitStart_cons _ (by decide)
  | cons x t => exact noDigitStart_cons _ (by decide)

theorem noDigitStart_minSerMems (ms : List (Str × JsonValue)) (rest : Str) :
    noDigitStart (minSerMems ms ++ '\x7d' :: rest) := by
  cases ms with
  | nil => exact noDigitStart_cons _ (by decide)
  | cons m t => exact noDigitStart_cons _ (by decide)

theorem parseMember_complete (fuel : Nat) (k : Str) (v : JsonValue) (bt tail : Str)
    (hbody : parseVal fuel bt = some (v, tail)) :
    parseMember (fuel + 1) ('"' :: (escapeStr k ++ '"' :: ':' :: bt)) = some ((k, v), tail) := by
  rw [parseMember, skipWs_cons_not_ws _ (by decide)]
  simp only [parseStringBody_escape k (':' :: bt)]
  rw [if_pos trivial]
  simp only [Option.some_bind]
  rw [skipWs_cons_not_ws _ (by decide)]
  simp [hbody]

/-! One unfolding lemma of `parseVal` per leading character, so the
completeness induction can dispatch without re-deriving the branch each
time. -/

theorem parseVal_succ_null (f : Nat) (rest : Str) :
    parseVal (f + 1) ('n' :: rest)
      = (expectChars ['u', 'l', 'l'] rest).map (fun r => (.null, r)) := by
  rw [parseVal, skipWs_cons_not_ws _ (by decide)]
  simp

theorem parseVal_succ_true (f : Nat) (rest : Str) :
    parseVal (f + 1) ('t' :: rest)
      = (expectChars ['r', 'u', 'e'] rest).map (fun r => (.bool true, r)) := by
  rw [parseVal, skipWs_cons_not_ws _ (by decide)]
  simp

theorem parseVal_succ_false (f : Nat) (rest : Str) :
    parseVal (f + 1) ('f' :: rest)
      = (expectChars ['a', 'l', 's', 'e'] rest).map (fun r => (.bool false, r)) := by
  rw [parseVal, skipWs_cons_not_ws _ (by decide)]
  simp

theorem parseVal_succ_quote (f : Nat) (rest : Str) :
    parseVal (f + 1) ('"' :: rest)
      = (parseStringBody rest).map (fun p => (.str p.1, p.2)) := by
  rw [parseVal, skipWs_cons_not_ws _ (by decide)]
  simp

theorem parseVal_succ_lbracket (f : Nat) (rest : Str) :
    parseVal (f + 1) ('[' :: rest)
      = (if headIs (skipWs rest) ']' then some (.arr [], (skipWs rest).tail)
         else (parseVal f (skipWs rest)).bind (fun p =>
           (parseArrRest f p.2).map (fun q => (.arr (p.1 :: q.1), q.2)))) := by
  rw [parseVal, skipWs_cons_not_ws _ (by decide)]
  simp

theorem parseVal_succ_lbrace (f : Nat) (rest : Str) :
    parseVal (f + 1) ('\x7b' :: rest)
      = (if headIs (skipWs rest) '\x7d' then some (.obj [], (skipWs rest).tail)
         else (parseMember f (skipWs rest)).bind (fun p =>
           (parseObjRest f p.2 (insertKV [] p.1.1 p.1.2)).map
             (fun q => (.obj q.1, q.2)))) := by
  rw [parseVal, skipWs_cons_not_ws _ (by decide)]
  simp

theorem parseVal_succ_minus (f : Nat) (rest : Str) :
    parseVal (f + 1) ('-' :: rest)
      = (match rest.span Char.isDigit with
         | ([], _) => none
         | (ds, r) => some (.num (-(digitsVal ds : Int)), r)) := by
  rw [parseVal, skipWs_cons_not_ws _ (by decide)]
  simp

theorem parseVal_succ_digit (f : Nat) {c : Char} (rest : Str) (hd : c.isDigit = true) :
    parseVal (f + 1) (c :: rest)
      = (match (c :: rest).span Char.isDigit with
         | (ds, r) => some (.num (digitsVal ds), r)) := by
  obtain ⟨hw, -, -, hn, ht, hf, hq, hlb, hlc, hm, -, -⟩ := digit_facts hd
  rw [parseVal, skipWs_cons_not_ws _ hw]
  simp only [if_neg hn, if_neg ht, if_neg hf, if_neg hq, if_neg hlb, if_neg hlc,
    if_neg hm, if_pos hd]

theorem parseArrRest_succ_comma (f : Nat) (rest : Str) :
    parseArrRest (f + 1) (',' :: rest)
      = (parseVal f rest).bind (fun p =>
          (parseArrRest f p.2).map (fun q => (p.1 :: q.1, q.2))) := by
  rw [parseArrRest, skipWs_cons_not_ws _ (by decide)]
  simp

theorem parseArrRest_succ_rbracket (f : Nat) (rest : Str) :
    parseArrRest (f + 1) (']' :: rest) = some ([], rest) := by
  rw [parseArrRest, skipWs_cons_not_ws _ (by decide)]
  simp

theorem parseObjRest_succ_comma (f : Nat) (rest : Str) (acc : List (Str × JsonValue)) :
    parseObjRest (f + 1) (',' :: rest) acc
      = (parseMember f rest).bind (fun p =>
          parseObjRest f p.2 (insertKV acc p.1.1 p.1.2)) := by
  rw [parseObjRest, skipWs_cons_not_ws _ (by decide)]
  simp

theorem parseObjRest_succ_rbrace (f : Nat) (rest : Str) (acc : List (Str × JsonValue)) :
    parseObjRest (f + 1) ('\x7d' :: rest) acc = some (acc, rest) := by
  rw [parseObjRest, skipWs_cons_not_ws _ (by decide)]
  simp

theorem parse_minSer_complete (fuel : Nat) :
    (∀ v rest, wfV v = true → sizeV v ≤ fuel → noDigitStart rest →
      parseVal fuel (minSerV v ++ rest) = some (v, rest)) ∧
    (∀ xs rest, wfArr xs = true → sizeItems xs < fuel → noDigitStart rest →
      parseArrRest fuel (minSerItems xs ++ ']' :: rest) = some (xs, rest)) ∧
    (∀ ms acc rest, wfObj (acc ++ ms) = true → sizeMems ms < fuel → noDigitStart rest →
      parseObjRest fuel (minSerMems ms ++ '\x7d' :: rest) acc = some (acc ++ ms, rest)) := by
  induction fuel using Nat.strong_induction_on with
  | _ fuel ih =>
  refine ⟨?_, ?_, ?_⟩
  · intro v rest hwf hsz hdl
    cases fuel with
    | zero => exact absurd hsz (by have := sizeV_pos v; omega)
    | succ f =>
      cases v with
      | null =>
          rw [show minSerV .null ++ rest = 'n' :: 'u' :: 'l' :: 'l' :: rest from rfl,
            parseVal_succ_null]
          simp [expectChars]
      | bool b =>
          cases b with
          | true =>
              rw [show minSerV (.bool true) ++ rest = 't' :: 'r' :: 'u' :: 'e' :: rest from rfl,
                parseVal_succ_true]
              simp [expectChars]
          | false =>
              rw [show minSerV (.bool false) ++ rest
                  = 'f' :: 'a' :: 'l' :: 's' :: 'e' :: rest from rfl, parseVal_succ_false]
              simp [expectChars]
      | num n =>
          cases n with
          | ofNat m =>
              obtain ⟨hne, hdig, hval⟩ := natToDigits_spec m
              obtain ⟨d, t, hd⟩ := List.exists_cons_of_ne_nil hne
              have hdd : d.isDigit = true := hdig d (by rw [hd]; exact List.mem_cons_self d t)
              have hshape : minSerV (.num (Int.ofNat m)) ++ rest = d :: (t ++ rest) := by
                rw [show minSerV (.num (Int.ofNat m)) = natToDigits m from rfl, hd,
                  List.cons_append]
              rw [hshape, parseVal_succ_digit f (t ++ rest) hdd,
                show d :: (t ++ rest) = (d :: t) ++ rest from (List.cons_append d t rest).symm,
                span_digits (d :: t) rest (by rw [← hd]; exact hdig) hdl]
              simp only [← hd, hval]
              rfl
          | negSucc m =>
              obtain ⟨hne, hdig, hval⟩ := natToDigits_spec (m + 1)
              have hshape : minSerV (.num (Int.negSucc m)) ++ rest
                  = '-' :: (natToDigits (m + 1) ++ rest) := by
                rw [show minSerV (.num (Int.negSucc m)) = '-' :: natToDigits (m + 1) from rfl,
                  List.cons_append]
              rw [hshape, parseVal_succ_minus, span_digits _ rest hdig hdl]
              obtain ⟨d, t, hd⟩ := List.exists_cons_of_ne_nil hne
              rw [hd]
              simp only [← hd, hval]
              have : (-((m : Int) + 1)) = Int.negSucc m := (Int.negSucc_eq m).symm
              rw [show ((m + 1 : Nat) : Int) = (m : Int) + 1 from by push_cast; ring, this]
      | str sv =>
          have hshape : minSerV (.str sv) ++ rest = '"' :: (escapeStr sv ++ '"' :: rest) := by
            rw [show minSerV (.str sv) = '"' :: (escapeStr sv ++ ['"']) from rfl,
              List.cons_append, List.append_assoc, List.singleton_append]
          rw [hshape, parseVal_succ_quote, parseStringBody_escape]
          rfl
      | arr xs =>
          cases xs with
          | nil =>
              rw [show minSerV (.arr []) ++ rest = '[' :: (']' :: rest) from rfl,
                parseVal_succ_lbracket, skipWs_cons_not_ws _ (by decide)]
              simp [headIs]
          | cons x txs =>
              have hw2 : wfV x = true ∧ wfArr txs = true := by
                rw [show wfV (.arr (x :: txs)) = wfArr (x :: txs) from rfl, wfArr,
                  Bool.and_eq_true] at hwf
                exact hwf
              have hs2 : sizeV x ≤ f ∧ sizeItems txs < f := by
                rw [show sizeV (.arr (x :: txs)) = sizeItems (x :: txs) + 1 from rfl,
                  sizeItems] at hsz
                have := sizeV_pos x
                omega
              have hshape : minSerV (.arr (x :: txs)) ++ rest
                  = '[' :: (minSerV x ++ (minSerItems txs ++ ']' :: rest)) := by
                rw [show minSerV (.arr (x :: txs))
                    = '[' :: (minSerV x ++ minSerItems txs ++ [']']) from rfl,
                  List.cons_append, List.append_assoc, List.append_assoc,
                  List.singleton_append]
              rw [hshape, parseVal_succ_lbracket]
              obtain ⟨c, t, hct, hcw, hcrb, hccb⟩ := minSer_goodHead x
              have hsk : skipWs (minSerV x ++ (minSerItems txs ++ ']' :: rest))
                  = minSerV x ++ (minSerItems txs ++ ']' :: rest) := by
                rw [hct, List.cons_append, skipWs_cons_not_ws _ hcw, ← List.cons_append, ← hct]
              rw [hsk]
              have hhd : headIs (minSerV x ++ (minSerItems txs ++ ']' :: rest)) ']' = false := by
                rw [hct, List.cons_append]
                simp [headIs, hcrb]
              rw [if_neg (by simp [hhd])]
              rw [(ih f (by omega)).1 x (minSerItems txs ++ ']' :: rest) hw2.1 hs2.1
                (noDigitStart_minSerItems txs rest)]
              simp only [Option.some_bind]
              rw [(ih f (by omega)).2.1 txs rest hw2.2 hs2.2 hdl]
              rfl
      | obj kvs =>
          cases kvs with
          | nil =>
              rw [show minSerV (.obj []) ++ rest = '\x7b' :: ('\x7d' :: rest) from rfl,
                parseVal_succ_lbrace, skipWs_cons_not_ws _ (by decide)]
              simp [headIs]
          | cons m tms =>
              obtain ⟨k, v⟩ := m
              have hwfm : wfObj ((k, v) :: tms) = true := hwf
              obtain ⟨hkn, hwv, hwt⟩ := wfObj_cons_parts hwfm
              have hszm : sizeV v + sizeMems tms + 2 ≤ f + 1 := by
                rw [show sizeV (.obj ((k, v) :: tms)) = sizeMems ((k, v) :: tms) + 1 from rfl,
                  sizeMems] at hsz
                omega
              cases f with
              | zero => exact absurd hszm (by have := sizeV_pos v; omega)
              | succ f2 =>
                have hshape : minSerV (.obj ((k, v) :: tms)) ++ rest
                    = '\x7b' :: ('"' :: (escapeStr k ++ '"' :: ':'
                        :: (minSerV v ++ (minSerMems tms ++ '\x7d' :: rest)))) := by
                  rw [show minSerV (.obj ((k, v) :: tms))
                      = '\x7b' :: (minSerMem (k, v) ++ minSerMems tms ++ ['\x7d']) from rfl,
                    show minSerMem (k, v) = '"' :: (escapeStr k ++ '"' :: ':' :: minSerV v)
                      from rfl]
                  simp [List.append_assoc]
                rw [hshape, parseVal_succ_lbrace, skipWs_cons_not_ws _ (by decide)]
                rw [if_neg (by simp [headIs])]
                rw [parseMember_complete f2 k v _ (minSerMems tms ++ '\x7d' :: rest)
                  ((ih f2 (by omega)).1 v (minSerMems tms ++ '\x7d' :: rest) hwv
                    (by omega) (noDigitStart_minSerMems tms rest))]
                simp only [Option.some_bind]
                rw [show insertKV [] k v = [(k, v)] from rfl]
                rw [(ih (f2 + 1) (by omega)).2.2 tms [(k, v)] rest hwfm (by omega) hdl]
                rfl
  · intro xs rest hwf hsz hdl
    cases fuel with
    | zero => exact absurd hsz (by omega)
    | succ f =>
      cases xs with
      | nil => exact parseArrRest_succ_rbracket f rest
      | cons x txs =>
          have hw2 : wfV x = true ∧ wfArr txs = true := by
            rw [wfArr, Bool.and_eq_true] at hwf
            exact hwf
          have hs2 : sizeV x ≤ f ∧ sizeItems txs < f := by
            rw [sizeItems] at hsz
            omega
          have hshape : minSerItems (x :: txs) ++ ']' :: rest
              = ',' :: (minSerV x ++ (minSerItems txs ++ ']' :: rest)) := by
            rw [show minSerItems (x :: txs) = ',' :: (minSerV x ++ minSerItems txs) from rfl,
              List.cons_append, List.append_assoc]
          rw [hshape, parseArrRest_succ_comma]
          rw [(ih f (by omega)).1 x (minSerItems txs ++ ']' :: rest) hw2.1 hs2.1
            (noDigitStart_minSerItems txs rest)]
          simp only [Option.some_bind]
          rw [(ih f (by omega)).2.1 txs rest hw2.2 hs2.2 hdl]
          rfl
  · intro ms acc rest hwf hsz hdl
    cases fuel with
    | zero => exact absurd hsz (by omega)
    | succ f =>
      cases ms with
      | nil =>
          rw [show minSerMems [] ++ '\x7d' :: rest = '\x7d' :: rest from rfl,
            parseObjRest_succ_rbrace, List.append_nil]
      | cons m tms =>
          obtain ⟨k, v⟩ := m
          have hwv : wfV v = true :=
            (wfObj_cons_parts (wfObj_append_right hwf)).2.1
          have hszm : sizeV v + sizeMems tms + 1 ≤ f := by
            rw [sizeMems] at hsz
            omega
          cases f with
          | zero => exact absurd hszm (by have := sizeV_pos v; omega)
          | succ f2 =>
            have hshape : minSerMems ((k, v) :: tms) ++ '\x7d' :: rest
                = ',' :: ('"' :: (escapeStr k ++ '"' :: ':'
                    :: (minSerV v ++ (minSerMems tms ++ '\x7d' :: rest)))) := by
              rw [show minSerMems ((k, v) :: tms) = ',' :: (minSerMem (k, v) ++ minSerMems tms)
                  from rfl,
                show minSerMem (k, v) = '"' :: (escapeStr k ++ '"' :: ':' :: minSerV v)
                  from rfl]
              simp [List.append_assoc]
            rw [hshape, parseObjRest_succ_comma]
            rw [parseMember_complete f2 k v _ (minSerMems tms ++ '\x7d' :: rest)
              ((ih f2 (by omega)).1 v (minSerMems tms ++ '\x7d' :: rest) hwv
                (by omega) (noDigitStart_minSerMems tms rest))]
            simp only [Option.some_bind]
            rw [insertKV_append v (wfObj_append_keyNotIn hwf)]
            have hwf2 : wfObj ((acc ++ [(k, v)]) ++ tms) = true := by
              rw [List.append_assoc]
              exact hwf
            rw [(ih (f2 + 1) (by omega)).2.2 tms (acc ++ [(k, v)]) rest hwf2 (by omega) hdl,
              List.append_assoc]
            rfl

mutual
theorem sizeV_le_minSer : ∀ v : JsonValue, sizeV v ≤ (minSerV v).length
  | .null => by rw [sizeV]; simp [minSerV]
  | .bool true => by rw [sizeV]; simp [minSerV]
  | .bool false => by rw [sizeV]; simp [minSerV]
  | .num n => by
      rw [sizeV]
      cases n with
      | ofNat m =>
          have := natToDigits_spec m |>.1
          rw [show minSerV (.num (Int.ofNat m)) = natToDigits m from rfl]
          exact List.length_pos.mpr this
      | negSucc m =>
          rw [show minSerV (.num (Int.negSucc m)) = '-' :: natToDigits (m + 1) from rfl]
          simp
  | .str s => by rw [sizeV]; simp [minSerV]
  | .arr [] => by rw [sizeV, sizeItems]; simp [minSerV]
  | .arr (x :: xs) => by
      have h1 := sizeV_le_minSer x
      have h2 := sizeItems_le_minSerItems xs
      rw [sizeV, sizeItems,
        show minSerV (.arr (x :: xs)) = '[' :: (minSerV x ++ minSerItems xs ++ [']'])
          from rfl]
      simp only [List.length_cons, List.length_append, List.length_singleton]
      omega
  | .obj [] => by rw [sizeV, sizeMems]; simp [minSerV]
  | .obj ((k, v) :: ms) => by
      have h1 := sizeV_le_minSer v
      have h2 := sizeMems_le_minSerMems ms
      rw [sizeV, sizeMems,
        show minSerV (.obj ((k, v) :: ms))
          = '\x7b' :: (minSerMem (k, v) ++ minSerMems ms ++ ['\x7d']) from rfl,
        show minSerMem (k, v) = '"' :: (escapeStr k ++ '"' :: ':' :: minSerV v) from rfl]
      simp only [List.length_cons, List.length_append, List.length_singleton]
      omega
theorem sizeItems_le_minSerItems : ∀ xs : List JsonValue,
    sizeItems xs ≤ (minSerItems xs).length
  | [] => by rw [sizeItems]; simp [minSerItems]
  | x :: xs => by
      have h1 := sizeV_le_minSer x
      have h2 := sizeItems_le_minSerItems xs
      rw [sizeItems, show minSerItems (x :: xs) = ',' :: (minSerV x ++ minSerItems xs)
        from rfl]
      simp only [List.length_cons, List.length_append]
      omega
theorem sizeMems_le_minSerMems : ∀ ms : List (Str × JsonValue),
    sizeMems ms ≤ (minSerMems ms).length
  | [] => by rw [sizeMems]; simp [minSerMems]
  | (k, v) :: ms => by
      have h1 := sizeV_le_minSer v
      have h2 := sizeMems_le_minSerMems ms
      rw [sizeMems, show minSerMems ((k, v) :: ms) = ',' :: (minSerMem (k, v) ++ minSerMems ms)
        from rfl,
        show minSerMem (k, v) = '"' :: (escapeStr k ++ '"' :: ':' :: minSerV v) from rfl]
      simp only [List.length_cons, List.length_append]
      omega
end

theorem parse_minSer (v : JsonValue) (h : wfV v = true) : parse (minSerV v) = some v := by
  rw [parse]
  have hc := (parse_minSer_complete ((minSerV v).length + 1)).1 v [] h
    (le_trans (sizeV_le_minSer v) (by omega)) noDigitStart_nil
  rw [List.append_nil] at hc
  rw [hc]
  rfl

theorem keyNotIn_insertKV {k2 k : Str} {acc : List (Str × JsonValue)} (v : JsonValue)
    (hne : k2 ≠ k) (h : keyNotIn k2 acc = true) :
    keyNotIn k2 (insertKV acc k v) = true := by
  rw [keyNotIn_iff] at h ⊢
  intro kv hkv
  induction acc with
  | nil =>
      rw [show insertKV [] k v = [(k, v)] from rfl, List.mem_singleton] at hkv
      subst hkv
      exact fun he => hne he.symm
  | cons kv0 rest ih =>
      obtain ⟨k0, v0⟩ := kv0
      rw [show insertKV ((k0, v0) :: rest) k v
          = if k0 = k then (k, v) :: rest else (k0, v0) :: insertKV rest k v from rfl] at hkv
      by_cases h0 : k0 = k
      · rw [if_pos h0] at hkv
        rcases List.mem_cons.mp hkv with rfl | hkv
        · exact fun he => hne he.symm
        · exact h kv (List.mem_cons_of_mem _ hkv)
      · rw [if_neg h0] at hkv
        rcases List.mem_cons.mp hkv with rfl | hkv
        · exact h (k0, v0) (List.mem_cons_self _ _)
        · exact ih (fun kv2 hkv2 => h kv2 (List.mem_cons_of_mem _ hkv2)) hkv

theorem wfObj_insertKV {acc : List (Str × JsonValue)} (k : Str) (v : JsonValue)
    (hacc : wfObj acc = true) (hv : wfV v = true) :
    wfObj (insertKV acc k v) = true := by
  induction acc with
  | nil =>
      rw [show insertKV [] k v = [(k, v)] from rfl, wfObj, keyNotIn, hv]
      rfl
  | cons kv0 rest ih =>
      obtain ⟨k0, v0⟩ := kv0
      obtain ⟨hkn0, hv0, hrest⟩ := wfObj_cons_parts hacc
      rw [show insertKV ((k0, v0) :: rest) k v
          = if k0 = k then (k, v) :: rest else (k0, v0) :: insertKV rest k v from rfl]
      by_cases h0 : k0 = k
      · rw [if_pos h0, wfObj]
        subst h0
        rw [hkn0, hv, hrest]
        rfl
      · rw [if_neg h0, wfObj]
        rw [keyNotIn_insertKV v h0 hkn0, hv0, ih hrest]
        rfl

theorem parse_sound_all (fuel : Nat) :
    (∀ cs v rest, parseVal fuel cs = some (v, rest) → wfV v = true) ∧
    (∀ cs xs rest, parseArrRest fuel cs = some (xs, rest) → wfArr xs = true) ∧
    (∀ cs kv rest, parseMember fuel cs = some (kv, rest) → wfV kv.2 = true) ∧
    (∀ cs acc ms rest, wfObj acc = true →
      parseObjRest fuel cs acc = some (ms, rest) → wfObj ms = true) := by
  induction fuel with
  | zero =>
      refine ⟨?_, ?_, ?_, ?_⟩ <;> intro cs
      · intro v rest h
        rw [parseVal] at h
        simp at h
      · intro xs rest h
        rw [parseArrRest] at h
        simp at h
      · intro kv rest h
        rw [parseMember] at h
        simp at h
      · intro acc ms rest hacc h
        rw [parseObjRest] at h
        simp at h
  | succ f ih =>
      obtain ⟨ihV, ihA, ihM, ihO⟩ := ih
      refine ⟨?_, ?_, ?_, ?_⟩
      · intro cs v rest h
        rw [parseVal] at h
        cases hsk : skipWs cs with
        | nil => rw [hsk] at h; simp at h
        | cons c r0 =>
          rw [hsk] at h
          simp only [] at h
          by_cases h1 : c = 'n'
          · rw [if_pos h1] at h
            obtain ⟨r1, -, hv⟩ := Option.map_eq_some'.mp h
            cases hv
            rfl
          rw [if_neg h1] at h
          by_cases h2 : c = 't'
          · rw [if_pos h2] at h
            obtain ⟨r1, -, hv⟩ := Option.map_eq_some'.mp h
            cases hv
            rfl
          rw [if_neg h2] at h
          by_cases h3 : c = 'f'
          · rw [if_pos h3] at h
            obtain ⟨r1, -, hv⟩ := Option.map_eq_some'.mp h
            cases hv
            rfl
          rw [if_neg h3] at h
          by_cases h4 : c = '"'
          · rw [if_pos h4] at h
            obtain ⟨p, -, hv⟩ := Option.map_eq_some'.mp h
            cases hv
            rfl
          rw [if_neg h4] at h
          by_cases h5 : c = '['
          · rw [if_pos h5] at h
            by_cases h5a : headIs (skipWs r0) ']' = true
            · rw [if_pos h5a] at h
              cases h
              rfl
            · rw [if_neg h5a] at h
              obtain ⟨p, hp, hq⟩ := Option.bind_eq_some.mp h
              obtain ⟨q, hq1, hv⟩ := Option.map_eq_some'.mp hq
              cases hv
              rw [show wfV (.arr (p.1 :: q.1)) = wfArr (p.1 :: q.1) from rfl, wfArr,
                ihV _ _ _ hp, ihA _ _ _ hq1]
              rfl
          rw [if_neg h5] at h
          by_cases h6 : c = '\x7b'
          · rw [if_pos h6] at h
            by_cases h6a : headIs (skipWs r0) '\x7d' = true
            · rw [if_pos h6a] at h
              cases h
              rfl
            · rw [if_neg h6a] at h
              obtain ⟨p, hp, hq⟩ := Option.bind_eq_some.mp h
              obtain ⟨q, hq1, hv⟩ := Option.map_eq_some'.mp hq
              cases hv
              rw [show wfV (.obj q.1) = wfObj q.1 from rfl]
              refine ihO _ _ _ _ ?_ hq1
              rw [show insertKV [] p.1.1 p.1.2 = [(p.1.1, p.1.2)] from rfl, wfObj,
                keyNotIn, ihM _ _ _ hp]
              rfl
          rw [if_neg h6] at h
          by_cases h7 : c = '-'
          · rw [if_pos h7] at h
            cases hspan : r0.span Char.isDigit with
            | mk ds r1 =>
              rw [hspan] at h
              cases ds with
              | nil => simp at h
              | cons d dt =>
                simp only [] at h
                cases h
                rfl
          rw [if_neg h7] at h
          by_cases h8 : c.isDigit = true
          · rw [if_pos h8] at h
            cases hspan : (c :: r0).span Char.isDigit with
            | mk ds r1 =>
              rw [hspan] at h
              simp only [] at h
              cases h
              rfl
          · rw [if_neg h8] at h
            simp at h
      · intro cs xs rest h
        rw [parseArrRest] at h
        cases hsk : skipWs cs with
        | nil => rw [hsk] at h; simp at h
        | cons c r0 =>
          rw [hsk] at h
          simp only [] at h
          by_cases h1 : c = ','
          · rw [if_pos h1] at h
            obtain ⟨p, hp, hq⟩ := Option.bind_eq_some.mp h
            obtain ⟨q, hq1, hv⟩ := Option.map_eq_some'.mp hq
            cases hv
            rw [wfArr, ihV _ _ _ hp, ihA _ _ _ hq1]
            rfl
          rw [if_neg h1] at h
          by_cases h2 : c = ']'
          · rw [if_pos h2] at h
            cases h
            rfl
          · rw [if_neg h2] at h
            simp at h
      · intro cs kv rest h
        rw [parseMember] at h
        cases hsk : skipWs cs with
        | nil => rw [hsk] at h; simp at h
        | cons c r0 =>
          rw [hsk] at h
          simp only [] at h
          by_cases h1 : c = '"'
          · rw [if_pos h1] at h
            obtain ⟨kp, -, hq⟩ := Option.bind_eq_some.mp h
            cases hsk2 : skipWs kp.2 with
            | nil => rw [hsk2] at hq; simp at hq
            | cons c2 r2 =>
              rw [hsk2] at hq
              simp only [] at hq
              by_cases h2 : c2 = ':'
              · rw [if_pos h2] at hq
                obtain ⟨p, hp, hv⟩ := Option.map_eq_some'.mp hq
                cases hv
                exact ihV _ _ _ hp
              · rw [if_neg h2] at hq
                simp at hq
          · rw [if_neg h1] at h
            simp at h
      · intro cs acc ms rest hacc h
        rw [parseObjRest] at h
        cases hsk : skipWs cs with
        | nil => rw [hsk] at h; simp at h
        | cons c r0 =>
          rw [hsk] at h
          simp only [] at h
          by_cases h1 : c = ','
          · rw [if_pos h1] at h
            obtain ⟨p, hp, hq⟩ := Option.bind_eq_some.mp h
            refine ihO _ _ _ _ ?_ hq
            exact wfObj_insertKV _ _ hacc (ihM _ _ _ hp)
          rw [if_neg h1] at h
          by_cases h2 : c = '\x7d'
          · rw [if_pos h2] at h
            cases h
            exact hacc
          · rw [if_neg h2] at h
            simp at h

theorem parse_wf {s : Str} {v : JsonValue} (h : parse s = some v) : wfV v = true := by
  rw [parse] at h
  cases hp : parseVal (s.length + 1) s with
  | none => rw [hp] at h; simp at h
  | some p =>
      obtain ⟨v0, r0⟩ := p
      rw [hp] at h
      simp only [] at h
      by_cases he : (skipWs r0).isEmpty = true
      · rw [if_pos he] at h
        cases h
        exact (parse_sound_all (s.length + 1)).1 s v r0 (by rw [hp])
      · rw [if_neg he] at h
        simp at h

theorem dropWhile_head_not (p : Char → Bool) (l : Str) :
    ∀ c t, l.dropWhile p = c :: t → p c = false := by
  induction l with
  | nil => intro c t h; simp at h
  | cons a l ih =>
      intro c t h
      rw [List.dropWhile_cons] at h
      by_cases ha : p a = true
      · rw [if_pos ha] at h
        exact ih c t h
      · rw [if_neg ha] at h
        cases h
        exact Bool.eq_false_iff.mpr ha

theorem parse_of_all_jsWs (s : Str) (hall : ∀ c ∈ s, isJsWs c = true) :
    parse s = none := by
  have hnone : parseVal (s.length + 1) s = none := by
    cases hsk : skipWs s with
    | nil => rw [parseVal, hsk]
    | cons c t =>
        have hc : c ∈ s := by
          have hsub := List.dropWhile_sublist isJsonWs (l := s)
          rw [show s.dropWhile isJsonWs = skipWs s from rfl, hsk] at hsub
          exact hsub.subset (List.mem_cons_self c t)
        have hjw : isJsWs c = true := hall c hc
        have hnjw : isJsonWs c = false := dropWhile_head_not _ _ _ _ hsk
        rw [isJsWs, hnjw] at hjw
        simp only [Bool.false_or, Bool.or_eq_true, decide_eq_true_eq] at hjw
        rw [parseVal, hsk]
        rcases hjw with ((rfl | rfl) | rfl) | rfl <;> simp
  rw [parse, hnone]

theorem trimmedEmpty_of_parse {s : Str} {v : JsonValue} (h : parse s = some v) :
    trimmedEmpty s = false := by
  by_cases ht : trimmedEmpty s = true
  · exfalso
    rw [trimmedEmpty, List.isEmpty_iff] at ht
    have hall : ∀ c ∈ s, isJsWs c = true := List.dropWhile_eq_nil_iff.mp ht
    rw [parse_of_all_jsWs s hall] at h
    exact Option.noConfusion h
  · exact Bool.eq_false_iff.mpr ht

theorem parseArrRest_ws (fuel : Nat) {w : Str} (cs : Str) (h : allWs w) :
    parseArrRest fuel (w ++ cs) = parseArrRest fuel cs := by
  cases fuel with
  | zero => rfl
  | succ f => rw [parseArrRest, parseArrRest, skipWs_ws_append cs h]

theorem parseObjRest_ws (fuel : Nat) {w : Str} (cs : Str) (acc : List (Str × JsonValue))
    (h : allWs w) : parseObjRest fuel (w ++ cs) acc = parseObjRest fuel cs acc := by
  cases fuel with
  | zero => rfl
  | succ f => rw [parseObjRest, parseObjRest, skipWs_ws_append cs h]

theorem allWs_single_space : allWs [' '] := by
  intro c hc
  rw [List.mem_singleton] at hc
  subst hc
  rfl



theorem skipWs_nl_indent (n : Nat) (z : Str) :
    skipWs ('\n' :: (indentSp n ++ z)) = skipWs z := by
  rw [show '\n' :: (indentSp n ++ z) = ('\n' :: indentSp n) ++ z from rfl,
    skipWs_ws_append z (allWs_nl_indent n)]

theorem parseVal_nl_indent (fuel n : Nat) (z : Str) :
    parseVal fuel ('\n' :: (indentSp n ++ z)) = parseVal fuel z := by
  cases fuel with
  | zero => rfl
  | succ f => rw [parseVal, parseVal, skipWs_nl_indent]

theorem parseVal_space (fuel : Nat) (z : Str) :
    parseVal fuel (' ' :: z) = parseVal fuel z := by
  cases fuel with
  | zero => rfl
  | succ f => rw [parseVal, parseVal, show skipWs (' ' :: z) = skipWs z from rfl]

theorem parseMember_nl_indent (fuel n : Nat) (z : Str) :
    parseMember fuel ('\n' :: (indentSp n ++ z)) = parseMember fuel z := by
  cases fuel with
  | zero => rfl
  | succ f => rw [parseMember, parseMember, skipWs_nl_indent]

theorem parseArrRest_nl_indent (fuel n : Nat) (z : Str) :
    parseArrRest fuel ('\n' :: (indentSp n ++ z)) = parseArrRest fuel z := by
  cases fuel with
  | zero => rfl
  | succ f => rw [parseArrRest, parseArrRest, skipWs_nl_indent]

theorem parseObjRest_nl_indent (fuel n : Nat) (z : Str) (acc : List (Str × JsonValue)) :
    parseObjRest fuel ('\n' :: (indentSp n ++ z)) acc = parseObjRest fuel z acc := by
  cases fuel with
  | zero => rfl
  | succ f => rw [parseObjRest, parseObjRest, skipWs_nl_indent]

theorem noDigitStart_prettyItems (gap ind n : Nat) (xs : List JsonValue) (rest : Str) :
    noDigitStart (prettyItems gap ind xs ++ '\n' :: (indentSp n ++ ']' :: rest)) := by
  cases xs with
  | nil => exact noDigitStart_cons _ (by decide)
  | cons x t => exact noDigitStart_cons _ (by decide)

theorem noDigitStart_prettyMems (gap ind n : Nat) (ms : List (Str × JsonValue)) (rest : Str) :
    noDigitStart (prettyMems gap ind ms ++ '\n' :: (indentSp n ++ '\x7d' :: rest)) := by
  cases ms with
  | nil => exact noDigitStart_cons _ (by decide)
  | cons m t => exact noDigitStart_cons _ (by decide)

theorem parse_pretty_complete (fuel : Nat) :
    (∀ gap ind v rest, wfV v = true → sizeV v ≤ fuel → noDigitStart rest →
      parseVal fuel (prettyV gap ind v ++ rest) = some (v, rest)) ∧
    (∀ gap ind n xs rest, wfArr xs = true → sizeItems xs < fuel → noDigitStart rest →
      parseArrRest fuel (prettyItems gap ind xs ++ '\n' :: (indentSp n ++ ']' :: rest))
        = some (xs, rest)) ∧
    (∀ gap ind n ms acc rest, wfObj (acc ++ ms) = true → sizeMems ms < fuel →
      noDigitStart rest →
      parseObjRest fuel (prettyMems gap ind ms ++ '\n' :: (indentSp n ++ '\x7d' :: rest)) acc
        = some (acc ++ ms, rest)) := by
  induction fuel using Nat.strong_induction_on with
  | _ fuel ih =>
  refine ⟨?_, ?_, ?_⟩
  · intro gap ind v rest hwf hsz hdl
    cases fuel with
    | zero => exact absurd hsz (by have := sizeV_pos v; omega)
    | succ f =>
      cases v with
      | null => exact (parse_minSer_complete (f + 1)).1 .null rest hwf hsz hdl
      | bool b =>
          cases b with
          | true => exact (parse_minSer_complete (f + 1)).1 (.bool true) rest hwf hsz hdl
          | false => exact (parse_minSer_complete (f + 1)).1 (.bool false) rest hwf hsz hdl
      | num n => exact (parse_minSer_complete (f + 1)).1 (.num n) rest hwf hsz hdl
      | str sv => exact (parse_minSer_complete (f + 1)).1 (.str sv) rest hwf hsz hdl
      | arr xs =>
          cases xs with
          | nil => exact (parse_minSer_complete (f + 1)).1 (.arr []) rest hwf hsz hdl
          | cons x txs =>
              have hw2 : wfV x = true ∧ wfArr txs = true := by
                rw [show wfV (.arr (x :: txs)) = wfArr (x :: txs) from rfl, wfArr,
                  Bool.and_eq_true] at hwf
                exact hwf
              have hs2 : sizeV x ≤ f ∧ sizeItems txs < f := by
                rw [show sizeV (.arr (x :: txs)) = sizeItems (x :: txs) + 1 from rfl,
                  sizeItems] at hsz
                have := sizeV_pos x
                omega
              have hshape : prettyV gap ind (.arr (x :: txs)) ++ rest
                  = '[' :: '\n' :: (indentSp (gap * (ind + 1))
                      ++ (prettyV gap (ind + 1) x ++ (prettyItems gap (ind + 1) txs
                        ++ '\n' :: (indentSp (gap * ind) ++ ']' :: rest)))) := by
                rw [show prettyV gap ind (.arr (x :: txs))
                    = '[' :: '\n' :: (indentSp (gap * (ind + 1)) ++ prettyV gap (ind + 1) x
                      ++ prettyItems gap (ind + 1) txs
                      ++ '\n' :: (indentSp (gap * ind) ++ [']'])) from rfl]
                simp [List.append_assoc]
              rw [hshape, parseVal_succ_lbracket,
                show skipWs ('\n' :: (indentSp (gap * (ind + 1))
                    ++ (prettyV gap (ind + 1) x ++ (prettyItems gap (ind + 1) txs
                      ++ '\n' :: (indentSp (gap * ind) ++ ']' :: rest)))))
                  = skipWs (prettyV gap (ind + 1) x ++ (prettyItems gap (ind + 1) txs
                      ++ '\n' :: (indentSp (gap * ind) ++ ']' :: rest)))
                  from skipWs_nl_indent _ _]
              obtain ⟨c, t, hct, hcw, hcrb, hccb⟩ := pretty_goodHead gap (ind + 1) x
              have hsk : skipWs (prettyV gap (ind + 1) x ++ (prettyItems gap (ind + 1) txs
                  ++ '\n' :: (indentSp (gap * ind) ++ ']' :: rest)))
                  = prettyV gap (ind + 1) x ++ (prettyItems gap (ind + 1) txs
                    ++ '\n' :: (indentSp (gap * ind) ++ ']' :: rest)) := by
                rw [hct, List.cons_append, skipWs_cons_not_ws _ hcw, ← List.cons_append, ← hct]
              rw [hsk]
              have hhd : headIs (prettyV gap (ind + 1) x ++ (prettyItems gap (ind + 1) txs
                  ++ '\n' :: (indentSp (gap * ind) ++ ']' :: rest))) ']' = false := by
                rw [hct, List.cons_append]
                simp [headIs, hcrb]
              rw [if_neg (by rw [hhd]; exact Bool.false_ne_true)]
              rw [(ih f (by omega)).1 gap (ind + 1) x (prettyItems gap (ind + 1) txs
                  ++ '\n' :: (indentSp (gap * ind) ++ ']' :: rest)) hw2.1 hs2.1
                (noDigitStart_prettyItems gap (ind + 1) (gap * ind) txs rest)]
              simp only [Option.some_bind]
              rw [(ih f (by omega)).2.1 gap (ind + 1) (gap * ind) txs rest hw2.2 hs2.2 hdl]
              rfl
      | obj kvs =>
          cases kvs with
          | nil => exact (parse_minSer_complete (f + 1)).1 (.obj []) rest hwf hsz hdl
          | cons m tms =>
              obtain ⟨k, v⟩ := m
              have hwfm : wfObj ((k, v) :: tms) = true := hwf
              obtain ⟨hkn, hwv, hwt⟩ := wfObj_cons_parts hwfm
              have hszm : sizeV v + sizeMems tms + 2 ≤ f + 1 := by
                rw [show sizeV (.obj ((k, v) :: tms)) = sizeMems ((k, v) :: tms) + 1 from rfl,
                  sizeMems] at hsz
                omega
              cases f with
              | zero => exact absurd hszm (by have := sizeV_pos v; omega)
              | succ f2 =>
                have hshape : prettyV gap ind (.obj ((k, v) :: tms)) ++ rest
                    = '\x7b' :: '\n' :: (indentSp (gap * (ind + 1))
                        ++ ('"' :: (escapeStr k ++ '"' :: ':' :: ' '
                          :: (prettyV gap (ind + 1) v ++ (prettyMems gap (ind + 1) tms
                            ++ '\n' :: (indentSp (gap * ind) ++ '\x7d' :: rest)))))) := by
                  rw [show prettyV gap ind (.obj ((k, v) :: tms))
                      = '\x7b' :: '\n' :: (indentSp (gap * (ind + 1))
                        ++ prettyMem gap (ind + 1) (k, v)
                        ++ prettyMems gap (ind + 1) tms
                        ++ '\n' :: (indentSp (gap * ind) ++ ['\x7d'])) from rfl,
                    show prettyMem gap (ind + 1) (k, v)
                      = '"' :: (escapeStr k ++ '"' :: ':' :: ' ' :: prettyV gap (ind + 1) v)
                      from rfl]
                  simp [List.append_assoc]
                rw [hshape, parseVal_succ_lbrace,
                  show skipWs ('\n' :: (indentSp (gap * (ind + 1))
                      ++ ('"' :: (escapeStr k ++ '"' :: ':' :: ' '
                        :: (prettyV gap (ind + 1) v ++ (prettyMems gap (ind + 1) tms
                          ++ '\n' :: (indentSp (gap * ind) ++ '\x7d' :: rest)))))))
                    = skipWs ('"' :: (escapeStr k ++ '"' :: ':' :: ' '
                        :: (prettyV gap (ind + 1) v ++ (prettyMems gap (ind + 1) tms
                          ++ '\n' :: (indentSp (gap * ind) ++ '\x7d' :: rest)))))
                    from skipWs_nl_indent _ _,
                  skipWs_cons_not_ws _ (by decide)]
                rw [if_neg (by simp [headIs])]
                have hbody : parseVal f2 (' ' :: (prettyV gap (ind + 1) v
                    ++ (prettyMems gap (ind + 1) tms
                      ++ '\n' :: (indentSp (gap * ind) ++ '\x7d' :: rest))))
                    = some (v, prettyMems gap (ind + 1) tms
                        ++ '\n' :: (indentSp (gap * ind) ++ '\x7d' :: rest)) := by
                  rw [parseVal_space]
                  exact (ih f2 (by omega)).1 gap (ind + 1) v _ hwv (by omega)
                    (noDigitStart_prettyMems gap (ind + 1) (gap * ind) tms rest)
                rw [parseMember_complete f2 k v _ _ hbody]
                simp only [Option.some_bind]
                rw [show insertKV [] k v = [(k, v)] from rfl]
                rw [(ih (f2 + 1) (by omega)).2.2 gap (ind + 1) (gap * ind) tms [(k, v)] rest
                  hwfm (by omega) hdl]
                rfl
  · intro gap ind n xs rest hwf hsz hdl
    cases fuel with
    | zero => exact absurd hsz (by omega)
    | succ f =>
      cases xs with
      | nil =>
          rw [show prettyItems gap ind [] ++ '\n' :: (indentSp n ++ ']' :: rest)
              = '\n' :: (indentSp n ++ ']' :: rest) from rfl,
            parseArrRest_nl_indent, parseArrRest_succ_rbracket]
      | cons x txs =>
          have hw2 : wfV x = true ∧ wfArr txs = true := by
            rw [wfArr, Bool.and_eq_true] at hwf
            exact hwf
          have hs2 : sizeV x ≤ f ∧ sizeItems txs < f := by
            rw [sizeItems] at hsz
            omega
          have hshape : prettyItems gap ind (x :: txs) ++ '\n' :: (indentSp n ++ ']' :: rest)
              = ',' :: '\n' :: (indentSp (gap * ind)
                  ++ (prettyV gap ind x ++ (prettyItems gap ind txs
                    ++ '\n' :: (indentSp n ++ ']' :: rest)))) := by
            rw [show prettyItems gap ind (x :: txs)
                = ',' :: '\n' :: (indentSp (gap * ind) ++ prettyV gap ind x
                  ++ prettyItems gap ind txs) from rfl]
            simp [List.append_assoc]
          rw [hshape, parseArrRest_succ_comma, parseVal_nl_indent]
          rw [(ih f (by omega)).1 gap ind x (prettyItems gap ind txs
              ++ '\n' :: (indentSp n ++ ']' :: rest)) hw2.1 hs2.1
            (noDigitStart_prettyItems gap ind n txs rest)]
          simp only [Option.some_bind]
          rw [(ih f (by omega)).2.1 gap ind n txs rest hw2.2 hs2.2 hdl]
          rfl
  · intro gap ind n ms acc rest hwf hsz hdl
    cases fuel with
    | zero => exact absurd hsz (by omega)
    | succ f =>
      cases ms with
      | nil =>
          rw [show prettyMems gap ind [] ++ '\n' :: (indentSp n ++ '\x7d' :: rest)
              = '\n' :: (indentSp n ++ '\x7d' :: rest) from rfl,
            parseObjRest_nl_indent, parseObjRest_succ_rbrace, List.append_nil]
      | cons m tms =>
          obtain ⟨k, v⟩ := m
          have hwv : wfV v = true :=
            (wfObj_cons_parts (wfObj_append_right hwf)).2.1
          have hszm : sizeV v + sizeMems tms + 1 ≤ f := by
            rw [sizeMems] at hsz
            omega
          cases f with
          | zero => exact absurd hszm (by have := sizeV_pos v; omega)
          | succ f2 =>
            have hshape : prettyMems gap ind ((k, v) :: tms)
                  ++ '\n' :: (indentSp n ++ '\x7d' :: rest)
                = ',' :: '\n' :: (indentSp (gap * ind)
                    ++ ('"' :: (escapeStr k ++ '"' :: ':' :: ' '
                      :: (prettyV gap ind v ++ (prettyMems gap ind tms
                        ++ '\n' :: (indentSp n ++ '\x7d' :: rest)))))) := by
              rw [show prettyMems gap ind ((k, v) :: tms)
                  = ',' :: '\n' :: (indentSp (gap * ind) ++ prettyMem gap ind (k, v)
                    ++ prettyMems gap ind tms) from rfl,
                show prettyMem gap ind (k, v)
                  = '"' :: (escapeStr k ++ '"' :: ':' :: ' ' :: prettyV gap ind v) from rfl]
              simp [List.append_assoc]
            rw [hshape, parseObjRest_succ_comma, parseMember_nl_indent]
            have hbody : parseVal f2 (' ' :: (prettyV gap ind v
                ++ (prettyMems gap ind tms ++ '\n' :: (indentSp n ++ '\x7d' :: rest))))
                = some (v, prettyMems gap ind tms
                    ++ '\n' :: (indentSp n ++ '\x7d' :: rest)) := by
              rw [parseVal_space]
              exact (ih f2 (by omega)).1 gap ind v _ hwv (by omega)
                (noDigitStart_prettyMems gap ind n tms rest)
            rw [parseMember_complete f2 k v _ _ hbody]
            simp only [Option.some_bind]
            rw [insertKV_append v (wfObj_append_keyNotIn hwf)]
            have hwf2 : wfObj ((acc ++ [(k, v)]) ++ tms) = true := by
              rw [List.append_assoc]
              exact hwf
            rw [(ih (f2 + 1) (by omega)).2.2 gap ind n tms (acc ++ [(k, v)]) rest hwf2
              (by omega) hdl, List.append_assoc]
            rfl

mutual
theorem sizeV_le_pretty : ∀ (gap ind : Nat) (v : JsonValue),
    sizeV v ≤ (prettyV gap ind v).length
  | _, _, .null => sizeV_le_minSer .null
  | _, _, .bool true => sizeV_le_minSer (.bool true)
  | _, _, .bool false => sizeV_le_minSer (.bool false)
  | _, _, .num n => sizeV_le_minSer (.num n)
  | _, _, .str s => sizeV_le_minSer (.str s)
  | _, _, .arr [] => sizeV_le_minSer (.arr [])
  | gap, ind, .arr (x :: xs) => by
      have h1 := sizeV_le_pretty gap (ind + 1) x
      have h2 := sizeItems_le_prettyItems gap (ind + 1) xs
      rw [sizeV, sizeItems,
        show prettyV gap ind (.arr (x :: xs))
          = '[' :: '\n' :: (indentSp (gap * (ind + 1)) ++ prettyV gap (ind + 1) x
            ++ prettyItems gap (ind + 1) xs
            ++ '\n' :: (indentSp (gap * ind) ++ [']'])) from rfl]
      simp only [List.length_cons, List.length_append, List.length_singleton]
      omega
  | _, _, .obj [] => sizeV_le_minSer (.obj [])
  | gap, ind, .obj ((k, v) :: ms) => by
      have h1 := sizeV_le_pretty gap (ind + 1) v
      have h2 := sizeMems_le_prettyMems gap (ind + 1) ms
      rw [sizeV, sizeMems,
        show prettyV gap ind (.obj ((k, v) :: ms))
          = '\x7b' :: '\n' :: (indentSp (gap * (ind + 1)) ++ prettyMem gap (ind + 1) (k, v)
            ++ prettyMems gap (ind + 1) ms
            ++ '\n' :: (indentSp (gap * ind) ++ ['\x7d'])) from rfl,
        show prettyMem gap (ind + 1) (k, v)
          = '"' :: (escapeStr k ++ '"' :: ':' :: ' ' :: prettyV gap (ind + 1) v) from rfl]
      simp only [List.length_cons, List.length_append, List.length_singleton]
      omega
theorem sizeItems_le_prettyItems : ∀ (gap ind : Nat) (xs : List JsonValue),
    sizeItems xs ≤ (prettyItems gap ind xs).length
  | _, _, [] => by rw [sizeItems]; simp [prettyItems]
  | gap, ind, x :: xs => by
      have h1 := sizeV_le_pretty gap ind x
      have h2 := sizeItems_le_prettyItems gap ind xs
      rw [sizeItems, show prettyItems gap ind (x :: xs)
          = ',' :: '\n' :: (indentSp (gap * ind) ++ prettyV gap ind x
            ++ prettyItems gap ind xs) from rfl]
      simp only [List.length_cons, List.length_append]
      omega
theorem sizeMems_le_prettyMems : ∀ (gap ind : Nat) (ms : List (Str × JsonValue)),
    sizeMems ms ≤ (prettyMems gap ind ms).length
  | _, _, [] => by rw [sizeMems]; simp [prettyMems]
  | gap, ind, (k, v) :: ms => by
      have h1 := sizeV_le_pretty gap ind v
      have h2 := sizeMems_le_prettyMems gap ind ms
      rw [sizeMems, show prettyMems gap ind ((k, v) :: ms)
          = ',' :: '\n' :: (indentSp (gap * ind) ++ prettyMem gap ind (k, v)
            ++ prettyMems gap ind ms) from rfl,
        show prettyMem gap ind (k, v)
          = '"' :: (escapeStr k ++ '"' :: ':' :: ' ' :: prettyV gap ind v) from rfl]
      simp only [List.length_cons, List.length_append]
      omega
end

theorem parse_pretty (gap : Nat) (v : JsonValue) (h : wfV v = true) :
    parse (prettyV gap 0 v) = some v := by
  rw [parse]
  have hc := (parse_pretty_complete ((prettyV gap 0 v).length + 1)).1 gap 0 v [] h
    (le_trans (sizeV_le_pretty gap 0 v) (by omega)) noDigitStart_nil
  rw [List.append_nil] at hc
  rw [hc]
  rfl

theorem parse_jsonStringify (v : JsonValue) (spaces : Nat) (h : wfV v = true) :
    parse (jsonStringify v spaces) = some v := by
  rw [jsonStringify]
  by_cases hz : spaces = 0
  · rw [if_pos hz]
    exact parse_minSer v h
  · rw [if_neg hz]
    exact parse_pretty (min spaces 10) v h

/-- C1: formatting and minifying change only the text, never the value — if
the input parses, the output of `formatJson` (for any indentation width) and
of `minifyJson` parses back to the very same value. -/
theorem c1_format_minify_preserve_value (s : Str) (v : JsonValue) (spaces : Nat)
    (h : parse s = some v) :
    parse (formatJson s spaces).formatted = some v ∧
    parse (minifyJson s).formatted = some v := by
  have hwf : wfV v = true := parse_wf h
  have hne : trimmedEmpty s = false := trimmedEmpty_of_parse h
  constructor
  · rw [formatJson]
    rw [if_neg (by rw [hne]; exact Bool.false_ne_true), h]
    exact parse_jsonStringify v spaces hwf
  · rw [minifyJson]
    rw [if_neg (by rw [hne]; exact Bool.false_ne_true), h]
    exact parse_minSer v hwf

/-- Witness for C1 at the input `[1, {"a": null}]` with the default two
space indentation. -/
theorem c1_format_minify_preserve_value_witness :
    parse "[1, \x7b\"a\": null\x7d]".data
        = some (.arr [.num 1, .obj [("a".data, .null)]]) ∧
    (parse (formatJson "[1, \x7b\"a\": null\x7d]".data 2).formatted
        = some (.arr [.num 1, .obj [("a".data, .null)]]) ∧
     parse (minifyJson "[1, \x7b\"a\": null\x7d]".data).formatted
        = some (.arr [.num 1, .obj [("a".data, .null)]])) :=
  ⟨by decide,
    c1_format_minify_preserve_value "[1, \x7b\"a\": null\x7d]".data
      (.arr [.num 1, .obj [("a".data, .null)]]) 2 (by decide)⟩
